import Mathlib

/-!
Verification of the Smart API Doc Assistant core (spec normalization
pipeline and derivation layer) against its design description.

The source is Python (`backend/main.py`, `nlp/summarizer.py`).  Decoded
JSON/YAML documents are modelled by the inductive type `J`; Python dicts
are association lists preserving insertion order (keys may be any
hashable value, so keys are `J` as well).  Operations that can raise a
Python exception return `Except String α`, the error string naming the
exception class.
-/

namespace ApiDoc

/-- A decoded JSON/YAML value (Python object tree). -/
inductive J where
  | null : J
  | bool (b : Bool) : J
  | num (n : Int) : J
  | str (s : String) : J
  | arr (elems : List J) : J
  | obj (entries : List (J × J)) : J
  deriving Repr

mutual
/-- Boolean equality on `J` (Python `==` restricted to structural equality). -/
def jeq : J → J → Bool
  | .null, .null => true
  | .bool a, .bool b => a = b
  | .num a, .num b => a = b
  | .str a, .str b => a = b
  | .arr xs, .arr ys => jeqList xs ys
  | .obj es, .obj fs => jeqEntries es fs
  | _, _ => false

def jeqList : List J → List J → Bool
  | [], [] => true
  | x :: xs, y :: ys => jeq x y && jeqList xs ys
  | _, _ => false

def jeqEntries : List (J × J) → List (J × J) → Bool
  | [], [] => true
  | (k, v) :: es, (k', v') :: fs => jeq k k' && jeq v v' && jeqEntries es fs
  | _, _ => false
end

mutual
theorem jeq_iff : ∀ (a b : J), jeq a b = true ↔ a = b
  | .null, b => by cases b <;> simp [jeq]
  | .bool a, b => by cases b <;> simp [jeq]
  | .num a, b => by cases b <;> simp [jeq]
  | .str a, b => by cases b <;> simp [jeq]
  | .arr xs, b => by
      cases b <;> simp [jeq]
      exact jeqList_iff xs _
  | .obj es, b => by
      cases b <;> simp [jeq]
      exact jeqEntries_iff es _

theorem jeqList_iff : ∀ (xs ys : List J), jeqList xs ys = true ↔ xs = ys
  | [], ys => by cases ys <;> simp [jeqList]
  | x :: xs, ys => by
      cases ys with
      | nil => simp [jeqList]
      | cons y ys => simp [jeqList, jeq_iff x y, jeqList_iff xs ys]

theorem jeqEntries_iff : ∀ (es fs : List (J × J)), jeqEntries es fs = true ↔ es = fs
  | [], fs => by cases fs <;> simp [jeqEntries]
  | (k, v) :: es, fs => by
      cases fs with
      | nil => simp [jeqEntries]
      | cons f fs =>
          obtain ⟨k', v'⟩ := f
          simp [jeqEntries, jeq_iff k k', jeq_iff v v', jeqEntries_iff es fs,
            Prod.ext_iff]
end

instance : DecidableEq J := fun a b => decidable_of_iff (jeq a b = true) (jeq_iff a b)

/-- Lookup in a Python dict (association list, first match). -/
def lookupEntries : List (J × J) → J → Option J
  | [], _ => none
  | (k', v) :: rest, k => if k' = k then some v else lookupEntries rest k

/-- Python `d[k] = v`: replace the value in place if the key exists, else append. -/
def insertEntries : List (J × J) → J → J → List (J × J)
  | [], k, v => [(k, v)]
  | (k', v') :: rest, k, v =>
      if k' = k then (k, v) :: rest else (k', v') :: insertEntries rest k v

/-- Python truthiness. -/
def truthy : J → Bool
  | .null => false
  | .bool b => b
  | .num n => decide (n ≠ 0)
  | .str s => decide (s ≠ "")
  | .arr xs => decide (xs ≠ [])
  | .obj es => decide (es ≠ [])

/-- Python `a or b` (both operands already pure values). -/
def pyOr (a b : J) : J := if truthy a then a else b

/-- The source's `_safe_get(d, *keys, default=...)`: chained lookup that
returns the default on any miss or non-dict; never raises. -/
def safeGet : J → List String → J → J
  | d, [], _ => d
  | .obj es, k :: ks, dflt =>
      match lookupEntries es (.str k) with
      | some v => safeGet v ks dflt
      | none => dflt
  | _, _ :: _, dflt => dflt

/-- Python `d.get(k)` (default `None`); AttributeError when `d` is not a dict. -/
def pGet : J → String → Except String J
  | .obj es, k => .ok ((lookupEntries es (.str k)).getD .null)
  | _, _ => .error "AttributeError"

/-- Python `d.get(k, dflt)`; AttributeError when `d` is not a dict. -/
def pGetD : J → String → J → Except String J
  | .obj es, k, dflt => .ok ((lookupEntries es (.str k)).getD dflt)
  | _, _, _ => .error "AttributeError"

/-- Python `d.items()`; AttributeError when `d` is not a dict. -/
def pyItems : J → Except String (List (J × J))
  | .obj es => .ok es
  | _ => .error "AttributeError"

/-- Python iteration `for x in v`: list elements, string characters,
dict keys; TypeError otherwise. -/
def pyIter : J → Except String (List J)
  | .arr xs => .ok xs
  | .str s => .ok (s.data.map (fun c => .str (String.singleton c)))
  | .obj es => .ok (es.map Prod.fst)
  | _ => .error "TypeError"

/-- Bool substring test: does `hay` contain `needle`? (Python `needle in hay`
for strings.) -/
def strContainsAux (needle : List Char) : List Char → Bool
  | [] => needle.isPrefixOf []
  | c :: cs => needle.isPrefixOf (c :: cs) || strContainsAux needle cs

def strContains (hay needle : String) : Bool :=
  strContainsAux needle.data hay.data

/-- ASCII lowercase (Python `s.lower()`), kernel-computable. -/
def lowerStr (s : String) : String := String.mk (s.data.map Char.toLower)

/-- ASCII uppercase (Python `s.upper()`), kernel-computable. -/
def upperStr (s : String) : String := String.mk (s.data.map Char.toUpper)

/-- Python `s[:n]` by characters, kernel-computable. -/
def takeStr (n : Nat) (s : String) : String := String.mk (s.data.take n)

/-- Python `s.split(sep)` for a one-character separator (keeps empties). -/
def splitCharAux (c : Char) : List Char → List Char → List String
  | [], cur => [String.mk cur.reverse]
  | x :: xs, cur =>
      if x = c then String.mk cur.reverse :: splitCharAux c xs []
      else splitCharAux c xs (x :: cur)

def splitChar (c : Char) (s : String) : List String := splitCharAux c s.data []

/-- Python `"sep".join(xs)` over strings, kernel-computable. -/
def joinWith (sep : String) : List String → String
  | [] => ""
  | [x] => x
  | x :: y :: rest => x ++ sep ++ joinWith sep (y :: rest)

/-- Python `s.startswith("/")`, kernel-computable. -/
def startsSlash (s : String) : Bool :=
  match s.data with
  | c :: _ => c = '/'
  | [] => false

/-- Python `k in v`: dict-key membership (TypeError on unhashable key),
substring test on strings (TypeError when `k` is not a string), element
membership for lists, TypeError otherwise. -/
def pyContains (k : J) : J → Except String Bool
  | .obj es =>
      match k with
      | .arr _ => .error "TypeError"
      | .obj _ => .error "TypeError"
      | _ => .ok (lookupEntries es k).isSome
  | .str s =>
      match k with
      | .str ks => .ok (strContains s ks)
      | _ => .error "TypeError"
  | .arr xs => .ok (xs.contains k)
  | _ => .error "TypeError"

/-- Python `v[k]` for a string key: dict lookup (KeyError when missing);
TypeError on non-dict receivers. -/
def pyIndex : J → String → Except String J
  | .obj es, k =>
      match lookupEntries es (.str k) with
      | some v => .ok v
      | none => .error "KeyError"
  | _, _ => .error "TypeError"

/-- Python `v.lower()`; AttributeError when `v` is not a string. -/
def pyLower : J → Except String String
  | .str s => .ok (lowerStr s)
  | _ => .error "AttributeError"

/-- Python `v.upper()`; AttributeError when `v` is not a string. -/
def pyUpper : J → Except String String
  | .str s => .ok (upperStr s)
  | _ => .error "AttributeError"

/-- Python `len(v)`; TypeError for values without a length. -/
def pyLen : J → Except String Nat
  | .str s => .ok s.length
  | .arr xs => .ok xs.length
  | .obj es => .ok es.length
  | _ => .error "TypeError"

/-- Escape a string for `json.dumps` output (ASCII control subset). -/
def jsonEscape (s : String) : String :=
  s.data.foldl
    (fun acc c =>
      if c = '"' then acc ++ "\\\""
      else if c = '\\' then acc ++ "\\\\"
      else if c = '\n' then acc ++ "\\n"
      else if c = '\t' then acc ++ "\\t"
      else if c = '\r' then acc ++ "\\r"
      else acc.push c) ""

mutual
/-- Python `json.dumps(v, ensure_ascii=False)` with default separators. -/
def jdump : J → String
  | .null => "null"
  | .bool true => "true"
  | .bool false => "false"
  | .num n => toString n
  | .str s => "\"" ++ jsonEscape s ++ "\""
  | .arr xs => "[" ++ jdumpList xs ++ "]"
  | .obj es => "\x7b" ++ jdumpEntries es ++ "\x7d"

def jdumpList : List J → String
  | [] => ""
  | [x] => jdump x
  | x :: y :: rest => jdump x ++ ", " ++ jdumpList (y :: rest)

def jdumpEntries : List (J × J) → String
  | [] => ""
  | [(k, v)] => jdumpKey k ++ ": " ++ jdump v
  | (k, v) :: e :: rest => jdumpKey k ++ ": " ++ jdump v ++ ", " ++ jdumpEntries (e :: rest)

/-- json.dumps coerces non-string dict keys to strings. -/
def jdumpKey : J → String
  | .str s => "\"" ++ jsonEscape s ++ "\""
  | .null => "\"null\""
  | .bool true => "\"true\""
  | .bool false => "\"false\""
  | .num n => "\"" ++ toString n ++ "\""
  | .arr xs => "[" ++ jdumpList xs ++ "]"
  | .obj es => "\x7b" ++ jdumpEntries es ++ "\x7d"
end

-- Size measure used for termination of the Postman folder walk.
mutual
def jsize : J → Nat
  | .null => 1
  | .bool _ => 1
  | .num _ => 1
  | .str s => 1 + s.length
  | .arr xs => 1 + jsizeList xs
  | .obj es => 1 + jsizeEntries es

def jsizeList : List J → Nat
  | [] => 0
  | x :: xs => jsize x + jsizeList xs

def jsizeEntries : List (J × J) → Nat
  | [] => 0
  | (k, v) :: es => jsize k + jsize v + jsizeEntries es
end

/-!
Text deriver (`summarize_text`, `extract_keywords` in `backend/main.py`,
identical duplicates in `nlp/summarizer.py`).
-/

/-- Python whitespace class `\s` (ASCII subset, which is what the inputs use). -/
def pyIsSpace (c : Char) : Bool :=
  c = ' ' || c = '\t' || c = '\n' || c = '\r' || c = '\x0b' || c = '\x0c'

def pyTrimAux (p : Char → Bool) (cs : List Char) : List Char :=
  (cs.dropWhile p).reverse.dropWhile p |>.reverse

/-- Python `s.strip()`. -/
def pyStrip (s : String) : String :=
  String.mk (pyTrimAux pyIsSpace s.data)

/-- Python `s.rstrip()`. -/
def pyRstrip (s : String) : String :=
  String.mk (s.data.reverse.dropWhile pyIsSpace).reverse

/-- First part of `re.split(r"(?<=[.!?])\s+", text)`: the prefix of the
text up to (excluding) the first whitespace that follows `.`, `!` or `?`. -/
def firstSentCore : List Char → List Char
  | [] => []
  | [c] => [c]
  | c1 :: c2 :: rest =>
      if (c1 = '.' || c1 = '!' || c1 = '?') && pyIsSpace c2 then [c1]
      else c1 :: firstSentCore (c2 :: rest)

/-- The source's `_first_sentence`. -/
def first_sentence (text : String) : String :=
  if text = "" then ""
  else pyStrip (String.mk (firstSentCore (pyStrip text).data))

/-- The source's `summarize_text` (`backend/main.py`; `nlp/summarizer.py`
is the same function with `max_length` defaulted to 220). -/
def summarize_text (text : String) : String :=
  let t := pyStrip text
  if t = "" then "No description available."
  else
    let s := first_sentence t
    if s.length < 30 then pyRstrip (takeStr 220 t)
    else s

/-- The fixed stop-word set from the source. -/
def STOPWORDS : List String :=
  ["a", "an", "and", "are", "as", "at", "be", "by", "for", "from", "has",
   "have", "how", "i", "if", "in", "into", "is", "it", "its", "of", "on",
   "or", "that", "the", "their", "them", "they", "this", "to", "was",
   "were", "what", "when", "where", "which", "who", "will", "with",
   "you", "your"]

def isAsciiLetter (c : Char) : Bool :=
  ('a' ≤ c && c ≤ 'z') || ('A' ≤ c && c ≤ 'Z')

def isTokenChar (c : Char) : Bool :=
  isAsciiLetter c || ('0' ≤ c && c ≤ '9') || c = '_' || c = '-'

/-- Token scanner equivalent to `re.findall(r"[a-zA-Z][a-zA-Z0-9_-]+", s)`:
a match starts at a letter, greedily extends over `[a-zA-Z0-9_-]`, and
needs at least two characters.  Single pass; `cur` is the reversed
in-progress match (`none` when not inside a match). -/
def tokenizeAux : List Char → Option (List Char) → List String
  | [], none => []
  | [], some cur => if cur.length ≥ 2 then [String.mk cur.reverse] else []
  | c :: cs, none =>
      if isAsciiLetter c then tokenizeAux cs (some [c])
      else tokenizeAux cs none
  | c :: cs, some cur =>
      if isTokenChar c then tokenizeAux cs (some (c :: cur))
      else
        if cur.length ≥ 2 then String.mk cur.reverse :: tokenizeAux cs none
        else tokenizeAux cs none

def tokenize (s : String) : List String :=
  tokenizeAux s.data none

/-- `freq[w] = freq.get(w, 0) + 1` over an insertion-ordered counter. -/
def bump : List (String × Nat) → String → List (String × Nat)
  | [], w => [(w, 1)]
  | (w', n) :: rest, w =>
      if w' = w then (w', n + 1) :: rest else (w', n) :: bump rest w

/-- Stable descending insertion (Python `sorted(..., key=count, reverse=True)`
is a stable sort; an element is placed before later elements of equal count). -/
def insertDesc (x : String × Nat) : List (String × Nat) → List (String × Nat)
  | [] => [x]
  | y :: ys => if y.2 > x.2 then y :: insertDesc x ys else x :: y :: ys

def sortDesc : List (String × Nat) → List (String × Nat)
  | [] => []
  | x :: xs => insertDesc x (sortDesc xs)

/-- The source's `extract_keywords`. -/
def extract_keywords (text : String) (top_k : Nat := 6) : List String :=
  let words := tokenize (lowerStr text)
  let freq := words.foldl
    (fun f w => if w ∈ STOPWORDS || w.length < 3 then f else bump f w) []
  let ranked := sortDesc freq
  (ranked.take top_k).map Prod.fst

/-!
Termination infrastructure for the Postman folder walk.
-/

theorem jsize_pos : ∀ v : J, 0 < jsize v := by
  intro v; cases v <;> simp [jsize]

theorem lookupEntries_size {es : List (J × J)} {k v : J}
    (h : lookupEntries es k = some v) : jsize v ≤ jsizeEntries es := by
  induction es with
  | nil => simp [lookupEntries] at h
  | cons e rest ih =>
      obtain ⟨k', v'⟩ := e
      simp only [lookupEntries] at h
      by_cases hk : k' = k
      · simp [hk] at h
        subst h
        simp [jsizeEntries]
        have := jsize_pos k'
        omega
      · simp [hk] at h
        have := ih h
        simp [jsizeEntries]
        omega

theorem pyIndex_ok_size {it : J} {k : String} {sub : J}
    (h : pyIndex it k = .ok sub) : jsize sub < jsize it := by
  cases it <;> simp [pyIndex] at h
  case obj es =>
    rcases hl : lookupEntries es (.str k) with _ | v <;> rw [hl] at h
    · simp at h
    · simp at h
      subst h
      have := lookupEntries_size hl
      simp [jsize]
      omega

theorem pyIndex_str_not_ok {s : String} {k : String} {v : J}
    (h : pyIndex (J.str s) k = .ok v) : False := by
  simp [pyIndex] at h

theorem jsizeList_map_fst_le : ∀ es : List (J × J),
    jsizeList (es.map Prod.fst) ≤ jsizeEntries es := by
  intro es
  induction es with
  | nil => simp [jsizeList, jsizeEntries]
  | cons e rest ih =>
      obtain ⟨k, v⟩ := e
      simp [jsizeList, jsizeEntries]
      have := jsize_pos v
      omega

/-!
Postman collection normalization (`_normalize_postman`, main.py 51-87).
-/

/-- Python `"/".join(xs)`: TypeError when an element is not a string. -/
def joinSegs : List J → Except String (List String)
  | [] => .ok []
  | .str s :: rest => (joinSegs rest).map (fun ss => s :: ss)
  | _ => .error "TypeError"

/-- Path extraction of `_walk` (main.py 68-77): a dict url uses its
`path` list joined with `/`, a string url is used verbatim, anything
else becomes `/`. -/
def postmanPath (url : J) : Except String J :=
  match url with
  | .obj es =>
      match (lookupEntries es (.str "path")).getD .null with
      | .arr xs =>
          match joinSegs xs with
          | .error e => .error e
          | .ok segs => .ok (J.str ("/" ++ joinWith "/" segs))
      | p => .ok p
  | .str s => .ok (J.str s)
  | _ => .ok (J.str "/")

/-- The leaf-item body of `_walk` (main.py 64-85 minus the dict store):
computes the `(path, verb, Operation)` contribution of one non-folder
item, `none` when the item carries no truthy `request`.  The final
hashability check mirrors `if path not in paths` raising TypeError on an
unhashable path value. -/
def leafEntry (it : J) : Except String (Option (J × String × J)) :=
  match pGet it "request" with
  | .error e => .error e
  | .ok req =>
    if !truthy req then .ok none
    else
      match pGet req "method" with
      | .error e => .error e
      | .ok m0 =>
        match pyLower (pyOr m0 (.str "GET")) with
        | .error e => .error e
        | .ok method =>
          -- req is a dict here, so both gets succeed or both fail alike
          match pGet req "url", pGet req "raw" with
          | .error e, _ => .error e
          | _, .error e => .error e
          | .ok u1, .ok u2 =>
            match postmanPath (pyOr u1 (pyOr u2 (.obj []))) with
            | .error e => .error e
            | .ok path0 =>
              let path := if truthy path0 then path0 else J.str "/"
              match path with
              | .arr _ => .error "TypeError"
              | .obj _ => .error "TypeError"
              | _ =>
                match pGet it "name" with
                | .error e => .error e
                | .ok nm =>
                    .ok (some (path, method,
                      J.obj [(.str "summary", pyOr nm (.str "")),
                             (.str "description",
                              safeGet it ["request", "description"] (.str "")),
                             (.str "parameters", .arr []),
                             (.str "responses", .obj [])]))

/-- `d.setdefault(path, {})[mKey] = op` on a two-level dict (also the
effect of `if path not in paths: paths[path] = {}` followed by
`paths[path][mKey] = op`). -/
def addEntryJ (paths : List (J × J)) (p : J) (mKey : J) (op : J) :
    List (J × J) :=
  let inner :=
    match lookupEntries paths p with
    | some (.obj es) => es
    | _ => []
  insertEntries paths p (.obj (insertEntries inner mKey op))

/-- The same store with a string verb key (`paths[path][method] = op`). -/
def addEntry (paths : List (J × J)) (p : J) (m : String) (op : J) :
    List (J × J) :=
  addEntryJ paths p (.str m) op

mutual
/-- The source's `_walk` applied to an arbitrary value (its argument is
always iterated, so lists walk elements, strings walk characters, dicts
walk keys, anything else raises TypeError).  The `paths` dict is the
threaded accumulator. -/
def walkVal (paths : List (J × J)) : J → Except String (List (J × J))
  | .arr its => walkItems paths its
  | .str s => walkChars paths s.data
  | .obj es => walkItems paths (es.map Prod.fst)
  | .null => .error "TypeError"
  | .bool _ => .error "TypeError"
  | .num _ => .error "TypeError"
termination_by v => jsize v
decreasing_by
  all_goals simp [jsize]
  have := jsizeList_map_fst_le es
  omega

/-- One iteration step of `_walk`'s `for it in items_list` loop. -/
def walkItems (paths : List (J × J)) : List J → Except String (List (J × J))
  | [] => .ok paths
  | it :: rest =>
    match pyContains (.str "item") it with
    | .error e => .error e
    | .ok true =>
      match _h : pyIndex it "item" with
      | .error e => .error e
      | .ok sub =>
        match walkVal paths sub with
        | .error e => .error e
        | .ok paths' => walkItems paths' rest
    | .ok false =>
      match leafEntry it with
      | .error e => .error e
      | .ok none => walkItems paths rest
      | .ok (some (p, m, op)) => walkItems (addEntry paths p m op) rest
termination_by xs => jsizeList xs
decreasing_by
  all_goals simp [jsizeList]
  · have := pyIndex_ok_size _h
    omega
  all_goals exact jsize_pos _

/-- The `for it in items_list` loop where the iterable was a string
(its items are one-character strings; each leaf step raises
AttributeError, as in Python). -/
def walkChars (paths : List (J × J)) : List Char → Except String (List (J × J))
  | [] => .ok paths
  | c :: cs =>
    match pyContains (.str "item") (J.str (String.singleton c)) with
    | .error e => .error e
    | .ok true =>
      match _h : pyIndex (J.str (String.singleton c)) "item" with
      | .error e => .error e
      | .ok sub =>
        match walkVal paths sub with
        | .error e => .error e
        | .ok paths' => walkChars paths' cs
    | .ok false =>
      match leafEntry (J.str (String.singleton c)) with
      | .error e => .error e
      | .ok none => walkChars paths cs
      | .ok (some (p, m, op)) => walkChars (addEntry paths p m op) cs
termination_by cs => cs.length
decreasing_by
  all_goals simp
  exact absurd _h (by simp [pyIndex])
end

/-- The source's `_normalize_postman`. -/
def normalize_postman (spec : List (J × J)) : Except String J :=
  let info := J.obj [(.str "title",
    safeGet (.obj spec) ["info", "name"] (.str "Postman Collection"))]
  let items := pyOr ((lookupEntries spec (.str "item")).getD (.arr [])) (.arr [])
  match walkVal [] items with
  | .error e => .error e
  | .ok paths => .ok (.obj [(.str "info", info), (.str "paths", .obj paths)])

/-!
Specification view of the walk: the ordered list of `(path, verb,
Operation)` contributions of every leaf item, however deeply nested.
It raises exactly when the walk raises (the leaf body never consults
the accumulated dict).
-/

mutual
def entVal : J → Except String (List (J × String × J))
  | .arr its => entItems its
  | .str s => entChars s.data
  | .obj es => entItems (es.map Prod.fst)
  | .null => .error "TypeError"
  | .bool _ => .error "TypeError"
  | .num _ => .error "TypeError"
termination_by v => jsize v
decreasing_by
  all_goals simp [jsize]
  have := jsizeList_map_fst_le es
  omega

def entItems : List J → Except String (List (J × String × J))
  | [] => .ok []
  | it :: rest =>
    match pyContains (.str "item") it with
    | .error e => .error e
    | .ok true =>
      match _h : pyIndex it "item" with
      | .error e => .error e
      | .ok sub =>
        match entVal sub with
        | .error e => .error e
        | .ok es1 =>
          match entItems rest with
          | .error e => .error e
          | .ok es2 => .ok (es1 ++ es2)
    | .ok false =>
      match leafEntry it with
      | .error e => .error e
      | .ok none => entItems rest
      | .ok (some ent) =>
        match entItems rest with
        | .error e => .error e
        | .ok es2 => .ok (ent :: es2)
termination_by xs => jsizeList xs
decreasing_by
  all_goals simp [jsizeList]
  · have := pyIndex_ok_size _h
    omega
  all_goals exact jsize_pos _

def entChars : List Char → Except String (List (J × String × J))
  | [] => .ok []
  | c :: cs =>
    match pyContains (.str "item") (J.str (String.singleton c)) with
    | .error e => .error e
    | .ok true =>
      match _h : pyIndex (J.str (String.singleton c)) "item" with
      | .error e => .error e
      | .ok sub =>
        match entVal sub with
        | .error e => .error e
        | .ok es1 =>
          match entChars cs with
          | .error e => .error e
          | .ok es2 => .ok (es1 ++ es2)
    | .ok false =>
      match leafEntry (J.str (String.singleton c)) with
      | .error e => .error e
      | .ok none => entChars cs
      | .ok (some ent) =>
        match entChars cs with
        | .error e => .error e
        | .ok es2 => .ok (ent :: es2)
termination_by cs => cs.length
decreasing_by
  all_goals simp
  exact absurd _h (by simp [pyIndex])
end

/-- Replay a list of leaf contributions against a paths dict. -/
def applyEntries (paths : List (J × J)) : List (J × String × J) → List (J × J)
  | [] => paths
  | (p, m, op) :: rest => applyEntries (addEntry paths p m op) rest

theorem applyEntries_append (es1 es2 : List (J × String × J)) :
    ∀ paths, applyEntries paths (es1 ++ es2) =
      applyEntries (applyEntries paths es1) es2 := by
  induction es1 with
  | nil => intro paths; simp [applyEntries]
  | cons e rest ih =>
      intro paths
      obtain ⟨p, m, op⟩ := e
      simp [applyEntries, ih]

theorem pyContains_item_singleton (c : Char) :
    pyContains (.str "item") (J.str (String.singleton c)) = .ok false := by
  have hd : (String.singleton c).data = [c] := rfl
  have hn : ("item" : String).data = ['i', 't', 'e', 'm'] := rfl
  simp [pyContains, strContains, hd, hn, strContainsAux, List.isPrefixOf]

theorem leafEntry_singleton (c : Char) :
    leafEntry (J.str (String.singleton c)) = .error "AttributeError" := by
  simp [leafEntry, pGet]

theorem walkChars_eq_entChars (cs : List Char) (paths : List (J × J)) :
    walkChars paths cs = (entChars cs).map (applyEntries paths) := by
  cases cs with
  | nil => simp [walkChars, entChars, applyEntries, Except.map]
  | cons c cs =>
      simp [walkChars, entChars, pyContains_item_singleton,
        leafEntry_singleton, Except.map]

theorem walk_eq_ent : ∀ n : Nat,
    (∀ v, jsize v ≤ n → ∀ paths,
      walkVal paths v = (entVal v).map (applyEntries paths)) ∧
    (∀ xs, jsizeList xs ≤ n → ∀ paths,
      walkItems paths xs = (entItems xs).map (applyEntries paths)) := by
  intro n
  induction n using Nat.strong_induction_on with
  | _ n ih =>
    constructor
    · intro v hv paths
      cases v with
      | null => simp [walkVal, entVal, Except.map]
      | bool b => simp [walkVal, entVal, Except.map]
      | num m => simp [walkVal, entVal, Except.map]
      | str s => simp [walkVal, entVal, walkChars_eq_entChars]
      | arr its =>
          have hlt : jsizeList its < n := by
            have : jsize (J.arr its) = 1 + jsizeList its := by simp [jsize]
            omega
          have h2 := (ih (jsizeList its) hlt).2 its le_rfl paths
          simpa [walkVal, entVal] using h2
      | obj es =>
          have hle := jsizeList_map_fst_le es
          have hlt : jsizeList (es.map Prod.fst) < n := by
            have : jsize (J.obj es) = 1 + jsizeEntries es := by simp [jsize]
            omega
          have h2 := (ih _ hlt).2 (es.map Prod.fst) le_rfl paths
          simpa [walkVal, entVal] using h2
    · intro xs hxs paths
      cases xs with
      | nil => simp [walkItems, entItems, applyEntries, Except.map]
      | cons it rest =>
          have hit : 0 < jsize it := jsize_pos it
          have hsz : jsizeList (it :: rest) = jsize it + jsizeList rest := by
            simp [jsizeList]
          have hrest_lt : jsizeList rest < n := by omega
          rcases hpc : pyContains (.str "item") it with e | b
          · simp [walkItems, entItems, hpc, Except.map]
          · cases b
            · rcases hle : leafEntry it with e | oent
              · simp [walkItems, entItems, hpc, hle, Except.map]
              · cases oent with
                | none =>
                    have h2 := (ih _ hrest_lt).2 rest le_rfl paths
                    simpa [walkItems, entItems, hpc, hle] using h2
                | some ent =>
                    obtain ⟨p, m, op⟩ := ent
                    have h2 := (ih _ hrest_lt).2 rest le_rfl (addEntry paths p m op)
                    rcases hent : entItems rest with e2 | es2
                    · rw [hent] at h2
                      simp [walkItems, entItems, hpc, hle, hent, h2, Except.map]
                    · rw [hent] at h2
                      simp [walkItems, entItems, hpc, hle, hent, h2,
                        Except.map, applyEntries]
            · simp only [walkItems, entItems, hpc]
              split
              · simp [Except.map]
              · rename_i sub hpi
                have hsub_lt : jsize sub < n := by
                  have := pyIndex_ok_size hpi
                  omega
                have hwv := (ih _ hsub_lt).1 sub le_rfl paths
                rcases hev : entVal sub with e1 | es1
                · rw [hev] at hwv
                  simp [hev, hwv, Except.map]
                · rw [hev] at hwv
                  have h2 := (ih _ hrest_lt).2 rest le_rfl (applyEntries paths es1)
                  rcases hent : entItems rest with e2 | es2
                  · rw [hent] at h2
                    simp [hev, hwv, hent, h2, Except.map]
                  · rw [hent] at h2
                    simp [hev, hwv, hent, h2, Except.map, applyEntries_append]

theorem walkVal_eq_entVal (v : J) (paths : List (J × J)) :
    walkVal paths v = (entVal v).map (applyEntries paths) :=
  (walk_eq_ent (jsize v)).1 v le_rfl paths

/-!
Observation of the accumulated paths dict.
-/

theorem lookupEntries_insert (es : List (J × J)) (k v q : J) :
    lookupEntries (insertEntries es k v) q =
      if k = q then some v else lookupEntries es q := by
  induction es with
  | nil => by_cases h : k = q <;> simp [insertEntries, lookupEntries, h]
  | cons e rest ih =>
      obtain ⟨a, b⟩ := e
      by_cases hak : a = k
      · subst hak
        by_cases haq : a = q <;> simp [insertEntries, lookupEntries, haq]
      · rcases eq_or_ne a q with haq | haq
        · subst haq
          rcases eq_or_ne k a with hkq | hkq
          · exact absurd hkq.symm hak
          · simp [insertEntries, lookupEntries, hak, hkq]
        · rcases eq_or_ne k q with hkq | hkq
          · subst hkq
            simp [insertEntries, lookupEntries, hak, haq, ih]
          · simp [insertEntries, lookupEntries, hak, haq, hkq, ih]

/-- Read the value stored for `(path, key)` in a two-level dict. -/
def lookupJ2 (paths : List (J × J)) (p : J) (mKey : J) : Option J :=
  match lookupEntries paths p with
  | some (.obj inner) => lookupEntries inner mKey
  | _ => none

/-- Read the Operation stored for `(path, verb)` in a paths dict. -/
def lookup2 (paths : List (J × J)) (p : J) (m : String) : Option J :=
  lookupJ2 paths p (.str m)

theorem lookupJ2_addEntryJ (paths : List (J × J)) (p mKey op p' mKey' : J) :
    lookupJ2 (addEntryJ paths p mKey op) p' mKey' =
      if p = p' ∧ mKey = mKey' then some op else lookupJ2 paths p' mKey' := by
  by_cases hp : p = p'
  · subst hp
    by_cases hm : mKey = mKey'
    · subst hm
      simp [addEntryJ, lookupJ2, lookupEntries_insert, lookupEntries]
    · simp only [addEntryJ, lookupJ2, lookupEntries_insert, if_pos rfl,
        true_and, if_neg hm]
      rcases hl : lookupEntries paths p with _ | v
      · simp [lookupEntries, hm]
      · cases v <;> simp [lookupEntries, lookupEntries_insert, hm]
  · have hps : ¬(p = p' ∧ mKey = mKey') := fun h => hp h.1
    simp [addEntryJ, lookupJ2, lookupEntries_insert, hp, hps]

theorem lookup2_addEntry (paths : List (J × J)) (p : J) (m : String) (op : J)
    (p' : J) (m' : String) :
    lookup2 (addEntry paths p m op) p' m' =
      if p = p' ∧ m = m' then some op else lookup2 paths p' m' := by
  have h := lookupJ2_addEntryJ paths p (.str m) op p' (.str m')
  simpa [lookup2, addEntry, J.str.injEq] using h

/-- The Operation of the last entry carrying the given `(path, verb)`. -/
def lastEntryOp : List (J × String × J) → J → String → Option J
  | [], _, _ => none
  | (p', m', op) :: rest, p, m =>
      match lastEntryOp rest p m with
      | some o => some o
      | none => if p' = p ∧ m' = m then some op else none

theorem lastEntryOp_cons (p' : J) (m' : String) (op : J)
    (rest : List (J × String × J)) (p : J) (m : String) :
    lastEntryOp ((p', m', op) :: rest) p m =
      match lastEntryOp rest p m with
      | some o => some o
      | none => if p' = p ∧ m' = m then some op else none := rfl

theorem lookup2_applyEntries (es : List (J × String × J)) :
    ∀ paths p m, lookup2 (applyEntries paths es) p m =
      match lastEntryOp es p m with
      | some o => some o
      | none => lookup2 paths p m := by
  induction es with
  | nil => intro paths p m; simp [applyEntries, lastEntryOp]
  | cons e rest ih =>
      obtain ⟨p', m', op⟩ := e
      intro paths p m
      simp only [applyEntries, lastEntryOp]
      rw [ih]
      rcases h : lastEntryOp rest p m with _ | o
      · by_cases hc : p' = p ∧ m' = m
        · simp [h, hc, lookup2_addEntry]
        · simp [h, hc, lookup2_addEntry]
      · simp [h]

theorem lastEntryOp_isSome_of_mem {es : List (J × String × J)} {p : J}
    {m : String} {op : J} (h : (p, m, op) ∈ es) :
    (lastEntryOp es p m).isSome := by
  induction es with
  | nil => simp at h
  | cons e rest ih =>
      obtain ⟨p', m', op'⟩ := e
      rcases List.mem_cons.mp h with h1 | h2
      · obtain ⟨hp, hm, _⟩ : p = p' ∧ m = m' ∧ op = op' := by
          simpa [Prod.ext_iff] using h1
        subst hp; subst hm
        simp only [lastEntryOp]
        rcases hr : lastEntryOp rest p m with _ | o
        · simp
        · simp
      · have := ih h2
        simp only [lastEntryOp]
        rcases hr : lastEntryOp rest p m with _ | o
        · rw [hr] at this; simp at this
        · simp

/-- The entry list a Postman normalization walks over. -/
def postmanEntries (spec : List (J × J)) :
    Except String (List (J × String × J)) :=
  entVal (pyOr ((lookupEntries spec (.str "item")).getD (.arr [])) (.arr []))

/-- Extract the entries of the `paths` member of a normalized result. -/
def resultPaths (res : J) : List (J × J) :=
  match res with
  | .obj es =>
      match lookupEntries es (.str "paths") with
      | some (.obj ps) => ps
      | _ => []
  | _ => []

/-!
OpenAPI, custom-endpoints and minimal normalization, and the detecting
dispatcher `normalize_spec` (main.py 37-49, 89-168).
-/

/-- The source's `_normalize_openapi`: `info` and `paths` are copied
through with key-presence and falsiness defaulting only. -/
def normalize_openapi (spec : List (J × J)) : J :=
  J.obj [(.str "info",
            pyOr ((lookupEntries spec (.str "info")).getD (.obj [])) (.obj [])),
         (.str "paths",
            pyOr ((lookupEntries spec (.str "paths")).getD (.obj [])) (.obj []))]

def pySQuote : String := String.singleton (Char.ofNat 39)

mutual
/-- Python `repr` (approximated: string contents are not re-escaped; the
claims never inspect these strings). -/
def pyRepr : J → String
  | .null => "None"
  | .bool true => "True"
  | .bool false => "False"
  | .num n => toString n
  | .str s => pySQuote ++ s ++ pySQuote
  | .arr xs => "[" ++ pyReprList xs ++ "]"
  | .obj es => "\x7b" ++ pyReprEntries es ++ "\x7d"

def pyReprList : List J → String
  | [] => ""
  | [x] => pyRepr x
  | x :: y :: rest => pyRepr x ++ ", " ++ pyReprList (y :: rest)

def pyReprEntries : List (J × J) → String
  | [] => ""
  | [(k, v)] => pyRepr k ++ ": " ++ pyRepr v
  | (k, v) :: e :: rest => pyRepr k ++ ": " ++ pyRepr v ++ ", " ++ pyReprEntries (e :: rest)
end

/-- Python `str(v)`. -/
def pyStr : J → String
  | .str s => s
  | v => pyRepr v

/-- One iteration of the `for e in spec.get("endpoints", []) or []` loop
of `_normalize_custom_endpoints` (main.py 99-133), threading the paths
dict. -/
def processEndpoint (paths : List (J × J)) (e : J) : Except String (List (J × J)) :=
  match pGet e "path", pGet e "endpoint" with
  | .error err, _ => .error err
  | _, .error err => .error err
  | .ok p1, .ok p2 =>
    let path := pyOr p1 (pyOr p2 (.str "/"))
    match pGet e "method" with
    | .error err => .error err
    | .ok m0 =>
      match pyLower (pyOr m0 (.str "GET")) with
      | .error err => .error err
      | .ok method =>
        match pGet e "name", pGet e "summary", pGet e "description" with
        | .error err, _, _ => .error err
        | _, .error err, _ => .error err
        | _, _, .error err => .error err
        | .ok n1, .ok n2, .ok d0 =>
          let summary := pyOr n1 (pyOr n2 (.str ""))
          let description := pyOr d0 (.str "")
          match pGet e "queryParams" with
          | .error err => .error err
          | .ok qp =>
            match (if truthy qp then
                (pyItems (pyOr qp (.obj []))).map (fun items =>
                  items.map (fun kt =>
                    J.obj [(.str "name", kt.1), (.str "in", .str "query"),
                           (.str "schema", .obj [(.str "type", .str (pyStr kt.2))]),
                           (.str "required", .bool false),
                           (.str "description", .str "")]))
              else .ok []) with
            | .error err => .error err
            | .ok params1 =>
              match pGet e "pathParams" with
              | .error err => .error err
              | .ok pp =>
                match (if truthy pp then
                    (pyItems (pyOr pp (.obj []))).map (fun items =>
                      items.map (fun kt =>
                        J.obj [(.str "name", kt.1), (.str "in", .str "path"),
                               (.str "schema", .obj [(.str "type", .str (pyStr kt.2))]),
                               (.str "required", .bool true),
                               (.str "description", .str "")]))
                  else .ok []) with
                | .error err => .error err
                | .ok params2 =>
                  let params := params1 ++ params2
                  match pGet e "body" with
                  | .error err => .error err
                  | .ok b =>
                    match (if truthy b then
                        (pyItems (pyOr b (.obj []))).map (fun items =>
                          J.obj [(.str "content", .obj [(.str "application/json",
                            .obj [(.str "schema", .obj [(.str "type", .str "object"),
                              (.str "properties", .obj (items.foldl
                                (fun acc kt => insertEntries acc kt.1
                                  (J.obj [(.str "type", .str "string"),
                                          (.str "description", .str "")])) [])),
                              (.str "required", .arr [])])])])])
                      else .ok (J.obj [])) with
                    | .error err => .error err
                    | .ok requestBody =>
                      match pGet e "response" with
                      | .error err => .error err
                      | .ok r =>
                        let responses :=
                          if truthy r then
                            J.obj [(.str "200",
                              .obj [(.str "description", .str "Response example"),
                                    (.str "content", .obj [(.str "application/json",
                                      .obj [(.str "example", r)])])])]
                          else J.obj []
                        match path with
                        | .arr _ => .error "TypeError"
                        | .obj _ => .error "TypeError"
                        | _ =>
                          .ok (addEntry paths path method
                            (J.obj [(.str "summary", summary),
                                    (.str "description", description),
                                    (.str "parameters", .arr params),
                                    (.str "requestBody", requestBody),
                                    (.str "responses", responses)]))

def customLoop (paths : List (J × J)) : List J → Except String (List (J × J))
  | [] => .ok paths
  | e :: rest =>
    match processEndpoint paths e with
    | .error err => .error err
    | .ok paths' => customLoop paths' rest

/-- The source's `_normalize_custom_endpoints`. -/
def normalize_custom_endpoints (spec : List (J × J)) : Except String J :=
  let info0 := pyOr ((lookupEntries spec (.str "info")).getD (.obj [])) (.obj [])
  let info :=
    if !truthy info0 && (lookupEntries spec (.str "name")).isSome then
      J.obj [(.str "title", (lookupEntries spec (.str "name")).getD .null),
             (.str "version", (lookupEntries spec (.str "version")).getD .null)]
    else info0
  let eps := pyOr ((lookupEntries spec (.str "endpoints")).getD (.arr [])) (.arr [])
  match pyIter eps with
  | .error err => .error err
  | .ok es =>
    match customLoop [] es with
    | .error err => .error err
    | .ok paths => .ok (.obj [(.str "info", info), (.str "paths", .obj paths)])

/-- The `for m, d in v.items()` inner loop of `_normalize_minimal`
(main.py 146-147), building the verb dict of one path. -/
def minimalMethods (inner : List (J × J)) : List (J × J) → Except String (List (J × J))
  | [] => .ok inner
  | (m, d) :: rest =>
    match pyLower m with
    | .error err => .error err
    | .ok ml =>
      match pGetD d "parameters" (.arr []) with
      | .error err => .error err
      | .ok params =>
        match pGetD d "responses" (.obj []) with
        | .error err => .error err
        | .ok responses =>
          minimalMethods
            (insertEntries inner (.str ml)
              (J.obj [(.str "summary", safeGet d ["summary"] (.str "")),
                      (.str "description", safeGet d ["description"] (.str "")),
                      (.str "parameters", params),
                      (.str "responses", responses)])) rest

/-- The top-level key scan of `_normalize_minimal` (main.py 141-147). -/
def minimalLoop (paths : List (J × J)) : List (J × J) → Except String (List (J × J))
  | [] => .ok paths
  | (k, v) :: rest =>
    match k with
    | .str s =>
      if startsSlash s then
        let paths1 := insertEntries paths k (.obj [])
        match v with
        | .obj ves =>
          match minimalMethods [] ves with
          | .error err => .error err
          | .ok inner => minimalLoop (insertEntries paths1 k (.obj inner)) rest
        | _ => minimalLoop paths1 rest
      else minimalLoop paths rest
    | _ => minimalLoop paths rest

/-- The source's `_normalize_minimal`. -/
def normalize_minimal (spec : List (J × J)) : Except String J :=
  let info := pyOr ((lookupEntries spec (.str "info")).getD (.obj []))
    (J.obj [(.str "title",
      pyOr ((lookupEntries spec (.str "title")).getD .null) (.str "API"))])
  match minimalLoop [] spec with
  | .error err => .error err
  | .ok paths => .ok (.obj [(.str "info", info), (.str "paths", .obj paths)])

/-- The source's `normalize_spec`: the fixed detection priority chain. -/
def normalize_spec (raw_spec : List (J × J)) : Except String J :=
  match lookupEntries raw_spec (.str "paths") with
  | some (.obj _) => .ok (normalize_openapi raw_spec)
  | _ =>
    match lookupEntries raw_spec (.str "item") with
    | some (.arr _) => normalize_postman raw_spec
    | _ =>
      match lookupEntries raw_spec (.str "endpoints") with
      | some (.arr _) => normalize_custom_endpoints raw_spec
      | _ =>
        if (lookupEntries raw_spec (.str "swagger")).isSome ||
           (lookupEntries raw_spec (.str "openapi")).isSome then
          .ok (normalize_openapi raw_spec)
        else
          normalize_minimal raw_spec

/-!
Upload route (main.py 392-421) and search route (main.py 448-463).
-/

inductive UploadResult where
  | decodeError : UploadResult
  | notAnObject : UploadResult
  | accepted (title version : J) (pathCount : Nat) : UploadResult
  | raised (e : String) : UploadResult
  deriving Repr, DecidableEq

/-- The `/upload-spec` handler.  Byte-level JSON/YAML parsing is outside
the shallow embedding: `decoded` is `none` when the body parses as
neither JSON nor YAML, otherwise the decoded document.  The result pair
is (HTTP response, cache after the request); the second component models
the module global `API_SPEC`, which the handler assigns before computing
the response metadata. -/
def upload_spec (decoded : Option J) (cache : J) : UploadResult × J :=
  match decoded with
  | none => (.decodeError, cache)
  | some parsed =>
    match parsed with
    | .obj es =>
      match normalize_spec es with
      | .error e => (.raised e, cache)
      | .ok normalized =>
        let title := safeGet normalized ["info", "title"]
          (safeGet normalized ["info", "name"] (.str "undefined"))
        let version := safeGet normalized ["info", "version"] (.str "undefined")
        match pGetD normalized "paths" (.obj []) with
        | .error e => (.raised e, normalized)
        | .ok pathsJ =>
          match pyLen (pyOr pathsJ (.obj [])) with
          | .error e => (.raised e, normalized)
          | .ok n => (.accepted title version n, normalized)
    | _ => (.notAnObject, cache)

inductive SearchResult where
  | noSpec : SearchResult
  | emptyKeyword : SearchResult
  | noMatches (keyword : String) : SearchResult
  | results (rs : List (J × J)) : SearchResult
  deriving Repr, DecidableEq

/-- The inner `for method, details in (methods or {}).items()` loop of the
search handler: `blob` is built first, then the three substring tests
short-circuit left to right (so `method.lower()` is not evaluated when
the path already matched). -/
def searchMethods (kw : String) (path : J) (acc : List (J × J)) :
    List (J × J) → Except String (List (J × J))
  | [] => .ok acc
  | (m, details) :: rest =>
    let blob := lowerStr (jdump details)
    match pyLower path with
    | .error e => .error e
    | .ok pl =>
      if strContains pl kw then
        searchMethods kw path (addEntryJ acc path m details) rest
      else
        match pyLower m with
        | .error e => .error e
        | .ok ml =>
          if strContains ml kw then
            searchMethods kw path (addEntryJ acc path m details) rest
          else if strContains blob kw then
            searchMethods kw path (addEntryJ acc path m details) rest
          else
            searchMethods kw path acc rest

/-- The outer `for path, methods in (API_SPEC.get("paths") or {}).items()`
loop of the search handler. -/
def searchPaths (kw : String) (acc : List (J × J)) :
    List (J × J) → Except String (List (J × J))
  | [] => .ok acc
  | (path, methods) :: rest =>
    match pyItems (pyOr methods (.obj [])) with
    | .error e => .error e
    | .ok mEs =>
      match searchMethods kw path acc mEs with
      | .error e => .error e
      | .ok acc' => searchPaths kw acc' rest

/-- The `/search` handler. -/
def search (api_spec : J) (keyword : String) : Except String SearchResult :=
  if !truthy api_spec then .ok .noSpec
  else
    let kw := pyStrip (lowerStr keyword)
    if kw = "" then .ok .emptyKeyword
    else
      match pGet api_spec "paths" with
      | .error e => .error e
      | .ok paths0 =>
        match pyItems (pyOr paths0 (.obj [])) with
        | .error e => .error e
        | .ok pEs =>
          match searchPaths kw [] pEs with
          | .error e => .error e
          | .ok rs =>
            if rs.isEmpty then .ok (.noMatches keyword)
            else .ok (.results rs)

/-!
Flow-diagram synthesis (`_generate_flow_diagram`, nlp/summarizer.py
107-158).
-/

/-- Short-circuiting `any(f(x) for x in xs)` over a monadic predicate. -/
def pyAnyM (f : J → Except String Bool) : List J → Except String Bool
  | [] => .ok false
  | x :: xs =>
    match f x with
    | .error e => .error e
    | .ok true => .ok true
    | .ok false => pyAnyM f xs

/-- Python `s.strip(c)`. -/
def stripChar (c : Char) (s : String) : String :=
  String.mk (pyTrimAux (fun x => x = c) s.data)

/-- Python `str.title()`: the first letter of every alpha run uppercased,
the rest lowercased. -/
def pyTitleAux : Bool → List Char → List Char
  | _, [] => []
  | prevAlpha, c :: cs =>
      (if c.isAlpha then (if prevAlpha then c.toLower else c.toUpper) else c)
        :: pyTitleAux c.isAlpha cs

def pyTitle (s : String) : String := String.mk (pyTitleAux false s.data)

/-- `[seg for seg in path.strip("/").split("/") if seg and "{" not in seg]`. -/
def flowSegs (s : String) : List String :=
  (splitChar '/' (stripChar '/' s)).filter
    (fun seg => seg ≠ "" && !strContains seg "\x7b")

/-- The per-verb resource edges (summarizer.py 132-143). -/
def flowMethodLines (r : String) (pathStr : String) (mUp : String) : List String :=
  if mUp = "GET" && strContains pathStr "\x7bid\x7d" then
    ["T --> G_" ++ r ++ "[GET /" ++ r ++ "/\x7bid\x7d]",
     "G_" ++ r ++ " --> V_" ++ r ++ "[📄 " ++ pyTitle r ++ " Detail]"]
  else if mUp = "GET" then
    ["T --> L_" ++ r ++ "[GET /" ++ r ++ "]",
     "L_" ++ r ++ " --> LST_" ++ r ++ "[📄 " ++ pyTitle r ++ " List]"]
  else if mUp = "POST" then
    ["T --> C_" ++ r ++ "[POST /" ++ r ++ "]",
     "C_" ++ r ++ " --> NEW_" ++ r ++ "[➕ New " ++ pyTitle r ++ "]"]
  else if mUp = "PUT" then
    ["T --> U_" ++ r ++ "[PUT /" ++ r ++ "/\x7bid\x7d]",
     "U_" ++ r ++ " --> UPD_" ++ r ++ "[✏️ Update " ++ pyTitle r ++ "]"]
  else if mUp = "DELETE" then
    ["T --> D_" ++ r ++ "[DELETE /" ++ r ++ "/\x7bid\x7d]",
     "D_" ++ r ++ " --> DEL_" ++ r ++ "[❌ Delete " ++ pyTitle r ++ "]"]
  else []

/-- `for method in (methods or {})` over one path (summarizer.py 132). -/
def flowMethodsLoop (r pathStr : String) : List J → Except String (List String)
  | [] => .ok []
  | mk :: rest =>
    match pyUpper mk with
    | .error e => .error e
    | .ok mUp =>
      match flowMethodsLoop r pathStr rest with
      | .error e => .error e
      | .ok ls => .ok (flowMethodLines r pathStr mUp ++ ls)

/-- `for path, methods in paths.items()` (summarizer.py 126-143).  A
non-string path raises AttributeError at `path.strip("/")`. -/
def flowResourceLoop : List (J × J) → Except String (List String)
  | [] => .ok []
  | (path, methods) :: rest =>
    match path with
    | .str ps =>
      match flowSegs ps with
      | [] => flowResourceLoop rest
      | r :: _ =>
        match pyIter (pyOr methods (.obj [])) with
        | .error e => .error e
        | .ok mks =>
          match flowMethodsLoop r ps mks with
          | .error e => .error e
          | .ok ls =>
            match flowResourceLoop rest with
            | .error e => .error e
            | .ok ls2 => .ok (ls ++ ls2)
    | _ => .error "AttributeError"

def mapUpperM : List J → Except String (List String)
  | [] => .ok []
  | mk :: rest =>
    match pyUpper mk with
    | .error e => .error e
    | .ok u => (mapUpperM rest).map (fun us => u :: us)

/-- `{m.upper() for p in paths for m in (paths[p] or {})}` collected as a
list (only membership is consumed downstream). -/
def allMethodsLoop (pathsEs : List (J × J)) : List J → Except String (List String)
  | [] => .ok []
  | p :: rest =>
    match pyIter (pyOr ((lookupEntries pathsEs p).getD .null) (.obj [])) with
    | .error e => .error e
    | .ok mks =>
      match mapUpperM mks with
      | .error e => .error e
      | .ok us =>
        match allMethodsLoop pathsEs rest with
        | .error e => .error e
        | .ok us2 => .ok (us ++ us2)

def sEdges : List String := ["U --> S[POST /signup]", "S --> SOK[✅ Account Created]"]
def lEdges : List String := ["U --> L[POST /login]", "L --> T[🔑 JWT/Session Token]"]
def tEdges : List String := ["U --> TK[POST /token]", "TK --> T[🔑 Access Token]"]

def flowCondS (p : J) : Except String Bool :=
  match pyContains (.str "signup") p with
  | .error e => .error e
  | .ok true => .ok true
  | .ok false => pyContains (.str "register") p

def flowCondL (p : J) : Except String Bool :=
  match pyContains (.str "login") p with
  | .error e => .error e
  | .ok true => .ok true
  | .ok false =>
    match pyContains (.str "auth") p with
    | .error e => .error e
    | .ok false => .ok false
    | .ok true => (pyContains (.str "token") p).map (fun b => !b)

def flowCondT (p : J) : Except String Bool :=
  pyContains (.str "token") p

/-- The source's `_generate_flow_diagram`, producing the list of emitted
lines (the source returns their `"\n"`-join). -/
def generate_flow_diagram (api_spec : J) : Except String (List String) :=
  match pGet api_spec "paths" with
  | .error e => .error e
  | .ok paths0 =>
    let pathsJ := pyOr paths0 (.obj [])
    match pyIter pathsJ with
    | .error e => .error e
    | .ok ks =>
      match pyAnyM flowCondS ks with
      | .error e => .error e
      | .ok condS =>
        match pyAnyM flowCondL ks with
        | .error e => .error e
        | .ok condL =>
          match pyAnyM flowCondT ks with
          | .error e => .error e
          | .ok condT =>
            let flow1 := ["```mermaid", "flowchart LR", "U[👤 Client]"]
              ++ (if condS then sEdges else [])
              ++ (if condL then lEdges else [])
              ++ (if condT then tEdges else [])
            match pyItems pathsJ with
            | .error e => .error e
            | .ok pEs =>
              match flowResourceLoop pEs with
              | .error e => .error e
              | .ok rls =>
                let flow2 := flow1 ++ rls
                match allMethodsLoop pEs ks with
                | .error e => .error e
                | .ok allMs =>
                  let flow3 := flow2 ++
                    (if !(flow2.any (fun step =>
                          strContains step "GET" && strContains step " --> ")) then
                      (if "GET" ∈ allMs then ["T --> R[GET read resource]"] else [])
                    else [])
                  let flow4 := flow3 ++
                    (if "POST" ∈ allMs then ["T --> C[POST create resource]"] else [])
                  let flow5 := flow4 ++
                    (if "PUT" ∈ allMs then ["T --> U2[PUT update resource]"] else [])
                  let flow6 := flow5 ++
                    (if "DELETE" ∈ allMs then ["T --> D[DELETE remove resource]"] else [])
                  .ok (flow6 ++ ["```"])

/-!
Supporting lemmas for the keyword extractor.
-/

def countW : List String → String → Nat
  | [], _ => 0
  | w :: ws, x => (if w = x then 1 else 0) + countW ws x

def alookup : List (String × Nat) → String → Option Nat
  | [], _ => none
  | (w, n) :: rest, x => if w = x then some n else alookup rest x

def keptTok (w : String) : Bool := !(w ∈ STOPWORDS || w.length < 3)

/-- Frequency of a token among the kept (non-stop-word, length ≥ 3)
tokens of the lowercased text. -/
def freqCount (text : String) (w : String) : Nat :=
  countW ((tokenize (lowerStr text)).filter keptTok) w

theorem alookup_bump_self (acc : List (String × Nat)) (w : String) :
    alookup (bump acc w) w = some ((alookup acc w).getD 0 + 1) := by
  induction acc with
  | nil => simp [bump, alookup]
  | cons e rest ih =>
      obtain ⟨w', n⟩ := e
      by_cases h : w' = w
      · subst h; simp [bump, alookup]
      · simp [bump, alookup, h, ih]

theorem alookup_bump_other (acc : List (String × Nat)) (w x : String)
    (hx : x ≠ w) : alookup (bump acc w) x = alookup acc x := by
  induction acc with
  | nil => simp [bump, alookup, Ne.symm hx]
  | cons e rest ih =>
      obtain ⟨w', n⟩ := e
      by_cases h : w' = w
      · subst h
        simp [bump, alookup, Ne.symm hx]
      · by_cases h2 : w' = x <;> simp [bump, alookup, h, h2, hx, ih]

theorem alookup_foldl_bump (ws : List String) :
    ∀ acc x, alookup (ws.foldl bump acc) x =
      match alookup acc x with
      | some n => some (n + countW ws x)
      | none => if 0 < countW ws x then some (countW ws x) else none := by
  induction ws with
  | nil =>
      intro acc x
      rcases h : alookup acc x with _ | n <;> simp [countW, h]
  | cons w ws ih =>
      intro acc x
      simp only [List.foldl_cons]
      rw [ih]
      by_cases hx : x = w
      · subst hx
        rw [alookup_bump_self]
        rcases h : alookup acc x with _ | n <;> simp [countW, h]
        omega
      · rw [alookup_bump_other acc w x hx]
        have : (if w = x then 1 else 0) = 0 := by simp [Ne.symm hx]
        rcases h : alookup acc x with _ | n <;> simp [countW, h, this]

theorem mem_bump {acc : List (String × Nat)} {w : String} {x : String × Nat}
    (h : x ∈ bump acc w) : x.1 = w ∨ ∃ n', (x.1, n') ∈ acc := by
  induction acc with
  | nil => simp [bump] at h; simp [h]
  | cons e rest ih =>
      obtain ⟨w', n⟩ := e
      by_cases hw : w' = w
      · subst hw
        simp [bump] at h
        rcases h with h | h
        · left; simp [h]
        · right; exact ⟨x.2, by simp [h]⟩
      · simp [bump, hw] at h
        rcases h with h | h
        · right; exact ⟨x.2, by simp [h]⟩
        · rcases ih h with h1 | ⟨n', h2⟩
          · exact Or.inl h1
          · exact Or.inr ⟨n', by simp [h2]⟩

theorem mem_foldl_bump {ws : List String} :
    ∀ {acc : List (String × Nat)} {x : String × Nat},
      x ∈ ws.foldl bump acc → x.1 ∈ ws ∨ ∃ n', (x.1, n') ∈ acc := by
  induction ws with
  | nil => intro acc x h; simp at h; exact Or.inr ⟨x.2, by simp [h]⟩
  | cons w ws ih =>
      intro acc x h
      simp only [List.foldl_cons] at h
      rcases ih h with h1 | ⟨n', h2⟩
      · exact Or.inl (List.mem_cons_of_mem _ h1)
      · rcases mem_bump h2 with h3 | ⟨n'', h4⟩
        · exact Or.inl (h3 ▸ List.mem_cons_self _ _)
        · exact Or.inr ⟨n'', h4⟩

theorem keys_bump_subset {acc : List (String × Nat)} {w x : String}
    (h : x ∈ (bump acc w).map Prod.fst) :
    x ∈ acc.map Prod.fst ∨ x = w := by
  rcases List.mem_map.mp h with ⟨⟨a, n⟩, ha, rfl⟩
  rcases mem_bump ha with h1 | ⟨n', h2⟩
  · exact Or.inr h1
  · exact Or.inl (List.mem_map.mpr ⟨((a, n).1, n'), h2, rfl⟩)

theorem bump_nodup {acc : List (String × Nat)} (w : String)
    (h : (acc.map Prod.fst).Nodup) : ((bump acc w).map Prod.fst).Nodup := by
  induction acc with
  | nil => simp [bump]
  | cons e rest ih =>
      obtain ⟨w', n⟩ := e
      by_cases hw : w' = w
      · subst hw
        simpa [bump] using h
      · rw [List.map_cons] at h
        rcases List.nodup_cons.mp h with ⟨hw', hrest⟩
        have hkeys : (bump ((w', n) :: rest) w).map Prod.fst =
            w' :: (bump rest w).map Prod.fst := by
          simp [bump, hw]
        rw [hkeys]
        refine List.nodup_cons.mpr ⟨?_, ih hrest⟩
        intro hx
        rcases keys_bump_subset hx with h1 | h1
        · exact hw' h1
        · exact hw h1

theorem foldl_bump_nodup (ws : List String) :
    ∀ {acc : List (String × Nat)}, (acc.map Prod.fst).Nodup →
      ((ws.foldl bump acc).map Prod.fst).Nodup := by
  induction ws with
  | nil => intro acc h; simpa using h
  | cons w ws ih => intro acc h; exact ih (bump_nodup w h)

theorem mem_alookup {l : List (String × Nat)} (hnd : (l.map Prod.fst).Nodup)
    {w : String} {n : Nat} (h : (w, n) ∈ l) : alookup l w = some n := by
  induction l with
  | nil => simp at h
  | cons e rest ih =>
      obtain ⟨w', n'⟩ := e
      simp at hnd
      rcases List.mem_cons.mp h with h1 | h2
      · obtain ⟨hw, hn⟩ : w = w' ∧ n = n' := by
          simpa [Prod.ext_iff] using h1
        rw [← hw, ← hn]
        simp [alookup]
      · by_cases hw : w' = w
        · subst hw
          exact absurd (List.mem_map_of_mem Prod.fst h2) (by simpa using hnd.1)
        · simp [alookup, hw, ih hnd.2 h2]

theorem insertDesc_perm (x : String × Nat) (l : List (String × Nat)) :
    (insertDesc x l).Perm (x :: l) := by
  induction l with
  | nil => simp [insertDesc]
  | cons y ys ih =>
      by_cases h : y.2 > x.2
      · simp only [insertDesc, if_pos h]
        exact (ih.cons y).trans (List.Perm.swap x y ys)
      · simp [insertDesc, h]

theorem sortDesc_perm (l : List (String × Nat)) : (sortDesc l).Perm l := by
  induction l with
  | nil => simp [sortDesc]
  | cons x xs ih =>
      exact (insertDesc_perm x (sortDesc xs)).trans (ih.cons x)

theorem mem_insertDesc {x z : String × Nat} {l : List (String × Nat)}
    (h : z ∈ insertDesc x l) : z = x ∨ z ∈ l :=
  List.mem_cons.mp ((insertDesc_perm x l).mem_iff.mp h)

theorem insertDesc_sorted {l : List (String × Nat)} (x : String × Nat)
    (h : l.Pairwise (fun a b => b.2 ≤ a.2)) :
    (insertDesc x l).Pairwise (fun a b => b.2 ≤ a.2) := by
  induction l with
  | nil => simp [insertDesc]
  | cons y ys ih =>
      rcases List.pairwise_cons.mp h with ⟨hy, hys⟩
      by_cases hc : y.2 > x.2
      · simp only [insertDesc, if_pos hc]
        refine List.pairwise_cons.mpr ⟨fun z hz => ?_, ih hys⟩
        rcases mem_insertDesc hz with h1 | h1
        · subst h1; omega
        · exact hy z h1
      · simp only [insertDesc, if_neg hc]
        push_neg at hc
        refine List.pairwise_cons.mpr ⟨fun z hz => ?_, h⟩
        rcases List.mem_cons.mp hz with h1 | h1
        · subst h1; exact hc
        · exact (hy z h1).trans hc

theorem sortDesc_sorted (l : List (String × Nat)) :
    (sortDesc l).Pairwise (fun a b => b.2 ≤ a.2) := by
  induction l with
  | nil => simp [sortDesc]
  | cons x xs ih => exact insertDesc_sorted x ih

theorem foldl_filter_bump (ws : List String) :
    ∀ acc, ws.foldl
        (fun f w => if w ∈ STOPWORDS || w.length < 3 then f else bump f w) acc =
      (ws.filter keptTok).foldl bump acc := by
  induction ws with
  | nil => intro acc; simp
  | cons w ws ih =>
      intro acc
      simp only [List.foldl_cons, List.filter_cons]
      by_cases h : (w ∈ STOPWORDS || w.length < 3 : Bool)
      · have hk : keptTok w = false := by simp [keptTok, h]
        rw [if_pos h, hk]
        simpa using ih acc
      · simp only [Bool.not_eq_true] at h
        have hk : keptTok w = true := by simp [keptTok, h]
        rw [if_neg (by simp [h]), hk]
        simpa using ih (bump acc w)

set_option maxRecDepth 40000 in
theorem freq_val {ws : List String} {w : String} {n : Nat}
    (h : (w, n) ∈ ws.foldl bump []) : n = countW ws w := by
  have hnd := @foldl_bump_nodup ws [] (by simp)
  have hl := mem_alookup hnd h
  rw [alookup_foldl_bump] at hl
  simp only [alookup] at hl
  by_cases hc : 0 < countW ws w
  · simp [hc] at hl
    omega
  · simp [hc] at hl

/-- Claim C7: `summarize_text` returns the fixed placeholder
`"No description available."` on empty or whitespace-only input; for
non-empty trimmed text it takes the first sentence (split at `.`, `!`
or `?` followed by whitespace); when that first sentence is shorter
than 30 characters it returns the first 220 characters of the full
trimmed text with trailing whitespace stripped, otherwise the first
sentence. -/
theorem c7_summarize_text (text : String) :
    (pyStrip text = "" → summarize_text text = "No description available.") ∧
    (pyStrip text ≠ "" →
      summarize_text text =
        (if (first_sentence (pyStrip text)).length < 30
         then pyRstrip (takeStr 220 (pyStrip text))
         else first_sentence (pyStrip text))) := by
  constructor
  · intro h
    simp [summarize_text, h]
  · intro h
    simp [summarize_text, h]

set_option maxRecDepth 40000 in
/-- Witness for C7: `"Tiny."` is a first sentence shorter than 30
characters, and the fallback is the truncated full text, not just the
first sentence; the empty case yields the placeholder. -/
theorem c7_witness :
    summarize_text "   " = "No description available." ∧
    summarize_text "Tiny. More text follows here" =
      "Tiny. More text follows here" := by
  constructor
  · exact (c7_summarize_text "   ").1 (by decide)
  · have h := (c7_summarize_text "Tiny. More text follows here").2 (by decide)
    rw [h]
    decide

set_option maxRecDepth 40000 in
/-- Claim C8: `extract_keywords` lowercases and tokenizes the text,
excludes every stop word and every token shorter than 3 characters,
returns at most `top_k` tokens ordered by descending frequency (stable
sort, ties in first-encountered order), and on
`"the cat sat on the cat mat"` ranks `"cat"` (frequency 2) before
`"sat"` and `"mat"` (frequency 1, in first-encountered order) while
`"the"` and `"on"` never appear. -/
theorem c8_extract_keywords (text : String) (k : Nat) :
    (∀ w ∈ extract_keywords text k, w ∉ STOPWORDS ∧ 3 ≤ w.length) ∧
    (extract_keywords text k).length ≤ k ∧
    (extract_keywords text k).Pairwise
      (fun a b => freqCount text b ≤ freqCount text a) ∧
    extract_keywords "the cat sat on the cat mat" 6 = ["cat", "sat", "mat"] := by
  have hfold := foldl_filter_bump (tokenize (lowerStr text)) []
  refine ⟨?_, ?_, ?_, by decide⟩
  · intro w hw
    simp only [extract_keywords, hfold] at hw
    rcases List.mem_map.mp hw with ⟨⟨w', n⟩, hmem, rfl⟩
    have h1 : (w', n) ∈ sortDesc (((tokenize (lowerStr text)).filter keptTok).foldl bump []) :=
      (List.take_sublist _ _).mem hmem
    have h2 := (sortDesc_perm _).mem_iff.mp h1
    rcases mem_foldl_bump h2 with h3 | ⟨n', h3⟩
    · have hk := (List.mem_filter.mp h3).2
      simp only [keptTok, Bool.not_eq_true', Bool.or_eq_false_iff] at hk
      constructor
      · show w' ∉ STOPWORDS
        simpa using hk.1
      · show 3 ≤ w'.length
        have h4 : ¬w'.length < 3 := by simpa using hk.2
        omega
    · simp at h3
  · simp only [extract_keywords]
    calc (((sortDesc _).take k).map Prod.fst).length
        = ((sortDesc _).take k).length := List.length_map _ _
      _ ≤ k := List.length_take_le _ _
  · simp only [extract_keywords, hfold]
    rw [List.pairwise_map]
    have hsorted := sortDesc_sorted (((tokenize (lowerStr text)).filter keptTok).foldl bump [])
    have hval : ∀ x ∈ sortDesc (((tokenize (lowerStr text)).filter keptTok).foldl bump []),
        x.2 = freqCount text x.1 := by
      intro x hx
      obtain ⟨w', n⟩ := x
      have := (sortDesc_perm _).mem_iff.mp hx
      exact freq_val this
    have hsorted' := hsorted.imp_of_mem
      (fun {a b} ha hb hab => by
        have h1 := hval a ha
        have h2 := hval b hb
        rw [h1, h2] at hab
        exact hab)
    exact hsorted'.sublist (List.take_sublist _ _) |>.imp (fun h => h)

/-- Witness for C8: the claim's own concrete test vector. -/
theorem c8_witness :
    extract_keywords "the cat sat on the cat mat" 6 = ["cat", "sat", "mat"] :=
  (c8_extract_keywords "x" 0).2.2.2

/-!
Claim C1 — verb-key casing in the OpenAPI branch.
-/

/-- The claim's invariant: every verb key of every path of a normalized
result is a string equal to its own lowercasing. -/
def verbKeysLowercased (res : J) : Prop :=
  ∀ p inner, lookupEntries (resultPaths res) p = some (.obj inner) →
    ∀ kv ∈ inner, ∃ s, kv.1 = J.str s ∧ lowerStr s = s

/-- Claim C1 is false as stated: on `{"paths": {"/a": {"POST": {}}}}`
the OpenAPI branch copies verbs through verbatim, so the canonical verb
key stays `"POST"` rather than becoming `"post"`. -/
theorem c1_counterexample :
    ¬ (∀ (raw pv : List (J × J)) (res : J),
        lookupEntries raw (.str "paths") = some (.obj pv) →
        normalize_spec raw = .ok res → verbKeysLowercased res) := by
  intro h
  have h1 := h [(.str "paths", .obj [(.str "/a", .obj [(.str "POST", .obj [])])])]
    [(.str "/a", .obj [(.str "POST", .obj [])])]
    (J.obj [(.str "info", .obj []),
            (.str "paths", .obj [(.str "/a", .obj [(.str "POST", .obj [])])])])
    (by rfl) (by rfl)
  have h2 := h1 (.str "/a") [(.str "POST", .obj [])] (by rfl)
    (.str "POST", .obj []) (by simp)
  obtain ⟨s, hs1, hs2⟩ := h2
  have hs : s = "POST" := by
    injection hs1 with h'
    exact h'.symm
  rw [hs] at hs2
  exact absurd hs2 (by decide)

/-- Claim C1 (amended): when the top-level `paths` value is a mapping,
normalization returns that mapping verbatim as the canonical `paths`:
path keys are preserved exactly (including `{param}` placeholders) and
verb keys are preserved exactly as well, casing included (input verb
`"POST"` stays `"POST"`). -/
theorem c1_openapi_paths_verbatim (raw pv : List (J × J))
    (h : lookupEntries raw (.str "paths") = some (.obj pv)) :
    ∃ info, normalize_spec raw =
      .ok (J.obj [(.str "info", info), (.str "paths", .obj pv)]) := by
  have hpaths : pyOr (.obj pv) (.obj []) = .obj pv := by
    cases pv <;> simp [pyOr, truthy]
  refine ⟨pyOr ((lookupEntries raw (.str "info")).getD (.obj [])) (.obj []), ?_⟩
  simp [normalize_spec, h, normalize_openapi, hpaths]

/-- Witness for the amended C1 at the counterexample document. -/
theorem c1_witness :
    ∃ info, normalize_spec
        [(.str "paths", .obj [(.str "/a", .obj [(.str "POST", .obj [])])])] =
      .ok (J.obj [(.str "info", info),
        (.str "paths", .obj [(.str "/a", .obj [(.str "POST", .obj [])])])]) :=
  c1_openapi_paths_verbatim _ _ (by rfl)

/-!
Claim C2 — the "normalization never raises" failure policy.
-/

/-- Claim C2 is violated by the code: the document `{"item": ["x"]}` is
a mapping, enters the Postman branch, and the walk evaluates
`"x".get("request")`, raising AttributeError instead of degrading to
empty collections. -/
theorem c2_normalize_raises :
    normalize_spec [(.str "item", .arr [.str "x"])] = .error "AttributeError" := by
  have hc : pyContains (.str "item") (J.str "x") = .ok false := rfl
  have hl : leafEntry (J.str "x") = .error "AttributeError" := rfl
  simp [normalize_spec, lookupEntries, normalize_postman, pyOr, truthy,
    walkVal, walkItems, hc, hl]

/-!
Claim C10 — every strategy returns exactly an `{info, paths}` mapping.
-/

theorem shape_postman (raw : List (J × J)) (res : J)
    (h : normalize_postman raw = .ok res) :
    ∃ i p, res = J.obj [(.str "info", i), (.str "paths", p)] := by
  unfold normalize_postman at h
  rcases hw : walkVal []
      (pyOr ((lookupEntries raw (.str "item")).getD (.arr [])) (.arr [])) with e | paths
  · exact Except.noConfusion (by simpa only [hw] using h : Except.error e = Except.ok res)
  · simp only [hw] at h
    exact ⟨_, _, by injection h with h1; exact h1.symm⟩

theorem shape_custom (raw : List (J × J)) (res : J)
    (h : normalize_custom_endpoints raw = .ok res) :
    ∃ i p, res = J.obj [(.str "info", i), (.str "paths", p)] := by
  unfold normalize_custom_endpoints at h
  rcases hi : pyIter
      (pyOr ((lookupEntries raw (.str "endpoints")).getD (.arr [])) (.arr [])) with e | es
  · exact Except.noConfusion (by simpa only [hi] using h : Except.error e = Except.ok res)
  · simp only [hi] at h
    rcases hc : customLoop [] es with e | paths
    · exact Except.noConfusion (by simpa only [hc] using h : Except.error e = Except.ok res)
    · simp only [hc] at h
      exact ⟨_, _, by injection h with h1; exact h1.symm⟩

theorem shape_minimal (raw : List (J × J)) (res : J)
    (h : normalize_minimal raw = .ok res) :
    ∃ i p, res = J.obj [(.str "info", i), (.str "paths", p)] := by
  unfold normalize_minimal at h
  rcases hm : minimalLoop [] raw with e | paths
  · exact Except.noConfusion (by simpa only [hm] using h : Except.error e = Except.ok res)
  · simp only [hm] at h
    exact ⟨_, _, by injection h with h1; exact h1.symm⟩

/-- Claim C10: whenever normalization returns, the result is a mapping
with exactly the two keys `info` and `paths`, in that order — every
detection strategy constructs a fresh two-entry `{info, paths}`
structure. -/
theorem c10_normalize_shape (raw : List (J × J)) (res : J)
    (h : normalize_spec raw = .ok res) :
    ∃ i p, res = J.obj [(.str "info", i), (.str "paths", p)] := by
  unfold normalize_spec at h
  split at h
  · exact ⟨_, _, by injection h with h1; exact h1.symm⟩
  · split at h
    · exact shape_postman _ _ h
    · split at h
      · exact shape_custom _ _ h
      · split at h
        · exact ⟨_, _, by injection h with h1; exact h1.symm⟩
        · exact shape_minimal _ _ h

/-- Witness for C10 at a concrete OpenAPI-shaped document. -/
theorem c10_witness :
    ∃ i p, J.obj [(.str "info", .obj []), (.str "paths", .obj [])] =
      J.obj [(.str "info", i), (.str "paths", p)] :=
  c10_normalize_shape [(.str "paths", .obj [])] _ (by rfl)

/-!
Claim C3 — the fixed detection priority chain.
-/

/-- The document's value at `k` (if any) is not a mapping
(`not ("k" in d and isinstance(d["k"], dict))` given the key may be absent). -/
def noDictAt (raw : List (J × J)) (k : String) : Prop :=
  ∀ es, lookupEntries raw (.str k) ≠ some (.obj es)

/-- The document's value at `k` (if any) is not a sequence. -/
def noListAt (raw : List (J × J)) (k : String) : Prop :=
  ∀ xs, lookupEntries raw (.str k) ≠ some (.arr xs)

/-- Claim C3: `normalize_spec` applies its strategies as a fixed
priority chain, first match wins: a mapping-valued `paths` selects the
OpenAPI strategy; else a sequence-valued `item` selects the Postman
strategy; else a sequence-valued `endpoints` selects the
custom-endpoints strategy; else a `swagger` or `openapi` key at the
root re-attempts the OpenAPI strategy regardless of whether `paths` is
well-formed; else the minimal fallback runs. -/
theorem normalize_spec_tail (raw : List (J × J))
    (hnd : noDictAt raw "paths") (hnl : noListAt raw "item")
    (hne : noListAt raw "endpoints") :
    normalize_spec raw =
      (if (lookupEntries raw (.str "swagger")).isSome ||
          (lookupEntries raw (.str "openapi")).isSome then
        .ok (normalize_openapi raw)
      else normalize_minimal raw) := by
  unfold normalize_spec
  split
  · rename_i hP
    exact absurd hP (hnd _)
  · split
    · rename_i hI
      exact absurd hI (hnl _)
    · split
      · rename_i hE
        exact absurd hE (hne _)
      · rfl

theorem c3_priority_chain (raw : List (J × J)) :
    (∀ pv, lookupEntries raw (.str "paths") = some (.obj pv) →
      normalize_spec raw = .ok (normalize_openapi raw)) ∧
    (noDictAt raw "paths" →
      ∀ iv, lookupEntries raw (.str "item") = some (.arr iv) →
      normalize_spec raw = normalize_postman raw) ∧
    (noDictAt raw "paths" → noListAt raw "item" →
      ∀ ev, lookupEntries raw (.str "endpoints") = some (.arr ev) →
      normalize_spec raw = normalize_custom_endpoints raw) ∧
    (noDictAt raw "paths" → noListAt raw "item" → noListAt raw "endpoints" →
      ((lookupEntries raw (.str "swagger")).isSome ∨
       (lookupEntries raw (.str "openapi")).isSome) →
      normalize_spec raw = .ok (normalize_openapi raw)) ∧
    (noDictAt raw "paths" → noListAt raw "item" → noListAt raw "endpoints" →
      lookupEntries raw (.str "swagger") = none →
      lookupEntries raw (.str "openapi") = none →
      normalize_spec raw = normalize_minimal raw) := by
  refine ⟨?_, ?_, ?_, ?_, ?_⟩
  · intro pv h
    simp [normalize_spec, h]
  · intro hnd iv hitem
    unfold normalize_spec
    split
    · rename_i hP
      exact absurd hP (hnd _)
    · split
      · rfl
      · rename_i hno
        exact absurd hitem (hno iv)
  · intro hnd hnl ev hE
    unfold normalize_spec
    split
    · rename_i hP
      exact absurd hP (hnd _)
    · split
      · rename_i hI
        exact absurd hI (hnl _)
      · split
        · rfl
        · rename_i hno
          exact absurd hE (hno ev)
  · intro hnd hnl hne hsw
    rw [normalize_spec_tail raw hnd hnl hne]
    rcases hsw with h | h <;> simp [h]
  · intro hnd hnl hne hsw hop
    rw [normalize_spec_tail raw hnd hnl hne]
    simp [hsw, hop]

/-- Witness for C3 at `{"swagger": "2.0", "paths": 5}`: `paths` exists
but is not a mapping, so the swagger re-attempt branch fires. -/
theorem c3_witness :
    normalize_spec [(.str "swagger", .str "2.0"), (.str "paths", .num 5)] =
      .ok (normalize_openapi
        [(.str "swagger", .str "2.0"), (.str "paths", .num 5)]) :=
  (c3_priority_chain _).2.2.2.1
    (by
      intro es h
      rw [show lookupEntries [(J.str "swagger", J.str "2.0"),
        (J.str "paths", J.num 5)] (J.str "paths") = some (J.num 5) from rfl] at h
      injection h with h'
      cases h')
    (by
      intro xs h
      rw [show lookupEntries [(J.str "swagger", J.str "2.0"),
        (J.str "paths", J.num 5)] (J.str "item") = none from rfl] at h
      cases h)
    (by
      intro xs h
      rw [show lookupEntries [(J.str "swagger", J.str "2.0"),
        (J.str "paths", J.num 5)] (J.str "endpoints") = none from rfl] at h
      cases h)
    (Or.inl (by rfl))

/-!
Claim C6 — rejected uploads leave the cached spec untouched.
-/

/-- Claim C6: an upload whose bytes decode as neither JSON nor YAML is
rejected with the cache unchanged; a decoded non-mapping document is
rejected with the cache unchanged; and the cache changes only when the
document decoded to a mapping and normalization succeeded, in which
case the new cache is exactly the normalization result. -/
theorem c6_upload_cache (cache : J) :
    upload_spec none cache = (.decodeError, cache) ∧
    (∀ v, (∀ es, v ≠ J.obj es) →
      upload_spec (some v) cache = (.notAnObject, cache)) ∧
    (∀ d res newCache, upload_spec d cache = (res, newCache) →
      newCache ≠ cache →
      ∃ es norm, d = some (.obj es) ∧ normalize_spec es = .ok norm ∧
        newCache = norm) := by
  refine ⟨rfl, ?_, ?_⟩
  · intro v hv
    cases v
    case obj es => exact absurd rfl (hv es)
    all_goals rfl
  · intro d res newCache h hne
    rcases d with _ | v
    · exact absurd (by injection h with _ h2; exact h2.symm) hne
    · cases v
      case obj es =>
        refine ⟨es, ?_⟩
        rcases hn : normalize_spec es with e | norm
        · rw [show upload_spec (some (.obj es)) cache = (.raised e, cache) by
            simp [upload_spec, hn]] at h
          exact absurd (by injection h with _ h2; exact h2.symm) hne
        · refine ⟨norm, rfl, rfl, ?_⟩
          simp only [upload_spec, hn] at h
          rcases hp : pGetD norm "paths" (.obj []) with e | pathsJ
          · simp only [hp] at h
            injection h with _ h2
            exact h2.symm
          · simp only [hp] at h
            rcases hl : pyLen (pyOr pathsJ (.obj [])) with e | n
            · simp only [hl] at h
              injection h with _ h2
              exact h2.symm
            · simp only [hl] at h
              injection h with _ h2
              exact h2.symm
      all_goals
        exact absurd (by injection h with _ h2; exact h2.symm) hne

/-- Witness for C6: a decoded non-mapping upload is rejected and the
previously cached spec survives unchanged. -/
theorem c6_witness :
    upload_spec (some (J.arr [])) (J.str "old cache") =
      (.notAnObject, J.str "old cache") :=
  (c6_upload_cache (J.str "old cache")).2.1 (J.arr [])
    (by intro es h; cases h)

/-!
Claim C4 — Postman folder flattening and last-wins overwriting.
-/

/-- Claim C4: for every Postman collection whose normalization returns,
every leaf item carrying a truthy `request`, at arbitrary folder depth,
contributes its `(path, verb)` entry to the resulting paths, and the
Operation stored for a `(path, verb)` pair is the one of the last
contributing leaf in walk order — later items silently overwrite
earlier ones. -/
theorem c4_postman_flatten (spec : List (J × J))
    (es : List (J × String × J)) (res : J) (p : J) (m : String) (op : J)
    (hent : postmanEntries spec = .ok es)
    (hres : normalize_postman spec = .ok res)
    (hmem : (p, m, op) ∈ es) :
    lookup2 (resultPaths res) p m = lastEntryOp es p m ∧
    (lastEntryOp es p m).isSome := by
  have hw : walkVal []
      (pyOr ((lookupEntries spec (.str "item")).getD (.arr [])) (.arr []))
      = .ok (applyEntries [] es) := by
    rw [walkVal_eq_entVal]
    unfold postmanEntries at hent
    rw [hent]
    rfl
  unfold normalize_postman at hres
  simp only [hw] at hres
  injection hres with h1
  refine ⟨?_, lastEntryOp_isSome_of_mem hmem⟩
  rw [← h1]
  have hrp : resultPaths (J.obj [(.str "info",
      J.obj [(.str "title",
        safeGet (.obj spec) ["info", "name"] (.str "Postman Collection"))]),
      (.str "paths", .obj (applyEntries [] es))]) = applyEntries [] es := by
    simp [resultPaths, lookupEntries]
  rw [hrp, lookup2_applyEntries]
  have hs := lastEntryOp_isSome_of_mem hmem
  rcases hlast : lastEntryOp es p m with _ | o
  · rw [hlast] at hs
    simp at hs
  · simp

def c4item1 : J :=
  .obj [(.str "name", .str "First"),
        (.str "request", .obj [(.str "url", .str "/dup")])]

def c4item2 : J :=
  .obj [(.str "name", .str "Second"),
        (.str "request", .obj [(.str "url", .str "/dup")])]

/-- A collection with one leaf nested three folders deep and a second
top-level leaf mapping to the same `(path, verb)`. -/
def c4spec : List (J × J) :=
  [(.str "item", .arr
    [.obj [(.str "item", .arr [.obj [(.str "item", .arr [c4item1])]])],
     c4item2])]

def c4op (nm : String) : J :=
  .obj [(.str "summary", .str nm), (.str "description", .str ""),
        (.str "parameters", .arr []), (.str "responses", .obj [])]

def c4es : List (J × String × J) :=
  [(.str "/dup", "get", c4op "First"), (.str "/dup", "get", c4op "Second")]

def c4res : J :=
  .obj [(.str "info", .obj [(.str "title", .str "Postman Collection")]),
        (.str "paths", .obj [(.str "/dup", .obj [(.str "get", c4op "Second")])])]

theorem c4_entries_eval : postmanEntries c4spec = .ok c4es := by
  have hf1 : pyContains (.str "item")
      (J.obj [(.str "item", .arr [.obj [(.str "item", .arr [c4item1])]])]) =
      .ok true := rfl
  have hf2 : pyContains (.str "item")
      (J.obj [(.str "item", .arr [c4item1])]) = .ok true := rfl
  have hl1 : pyContains (.str "item") c4item1 = .ok false := rfl
  have hl2 : pyContains (.str "item") c4item2 = .ok false := rfl
  have he1 : leafEntry c4item1 = .ok (some (.str "/dup", "get", c4op "First")) := rfl
  have he2 : leafEntry c4item2 = .ok (some (.str "/dup", "get", c4op "Second")) := rfl
  simp only [postmanEntries, c4spec]
  simp [entVal, entItems, pyIndex, lookupEntries, pyOr, truthy,
    hf1, hf2, hl1, hl2, he1, he2, c4es]

/-- Witness for C4 at the three-deep nested collection with a duplicate
`(path, verb)`: the entry is present and the stored Operation is the
second (later) leaf's. -/
theorem c4_witness :
    lookup2 (resultPaths c4res) (J.str "/dup") "get" =
      lastEntryOp c4es (J.str "/dup") "get" ∧
    (lastEntryOp c4es (J.str "/dup") "get").isSome := by
  refine c4_postman_flatten c4spec c4es c4res (J.str "/dup") "get"
    (c4op "First") c4_entries_eval ?_ (by simp [c4es])
  have hw : walkVal []
      (pyOr ((lookupEntries c4spec (.str "item")).getD (.arr [])) (.arr []))
      = .ok (applyEntries [] c4es) := by
    rw [walkVal_eq_entVal]
    rw [show entVal (pyOr ((lookupEntries c4spec (.str "item")).getD (.arr []))
      (.arr [])) = .ok c4es from c4_entries_eval]
    rfl
  unfold normalize_postman
  simp only [hw]
  rfl

/-!
Claim C9 — auth-edge detection and placement in the flow diagram.
-/

/-- Well-formed paths mapping: string path keys, object verb maps with
string verb keys (what every decoded OpenAPI document provides). -/
def wfPathsB (pEs : List (J × J)) : Bool :=
  pEs.all (fun e =>
    match e with
    | (.str _, .obj ms) =>
        ms.all (fun me => match me.1 with | .str _ => true | _ => false)
    | _ => false)

theorem wfPathsB_cons {k v : J} {rest : List (J × J)}
    (h : wfPathsB ((k, v) :: rest) = true) :
    (∃ p ms, k = J.str p ∧ v = J.obj ms ∧
      ∀ me ∈ ms, ∃ s, me.1 = J.str s) ∧
    wfPathsB rest = true := by
  rw [wfPathsB, List.all_cons] at h
  rcases Bool.and_eq_true_iff.mp h with ⟨h1, h2⟩
  refine ⟨?_, h2⟩
  cases k <;> cases v <;> simp at h1
  refine ⟨_, _, rfl, rfl, ?_⟩
  intro me hme
  have hm := h1 me.1 me.2 (by simpa using hme)
  cases hk : me.1 <;> rw [hk] at hm <;> simp at hm
  exact ⟨_, rfl⟩

/-- The claim-side detection conditions: fragments as substrings of path
keys. -/
def condSignup (pEs : List (J × J)) : Bool :=
  pEs.any (fun e =>
    match e.1 with
    | .str p => strContains p "signup" || strContains p "register"
    | _ => false)

def condLogin (pEs : List (J × J)) : Bool :=
  pEs.any (fun e =>
    match e.1 with
    | .str p => strContains p "login" || (strContains p "auth" && !strContains p "token")
    | _ => false)

def condToken (pEs : List (J × J)) : Bool :=
  pEs.any (fun e =>
    match e.1 with
    | .str p => strContains p "token"
    | _ => false)

theorem flowCondS_str (p : String) :
    flowCondS (.str p) = .ok (strContains p "signup" || strContains p "register") := by
  cases hb : strContains p "signup" <;> simp [flowCondS, pyContains, hb]

theorem flowCondL_str (p : String) :
    flowCondL (.str p) =
      .ok (strContains p "login" || (strContains p "auth" && !strContains p "token")) := by
  cases hb1 : strContains p "login" <;> cases hb2 : strContains p "auth" <;>
    cases hb3 : strContains p "token" <;>
    simp [flowCondL, pyContains, hb1, hb2, hb3, Except.map]

theorem flowCondT_str (p : String) :
    flowCondT (.str p) = .ok (strContains p "token") := rfl

/-- Short-circuit `any` over path keys computes the Bool `any` of a
per-key predicate on well-formed paths. -/
theorem pyAnyM_keys (f : J → Except String Bool) (g : String → Bool)
    (hf : ∀ s, f (.str s) = .ok (g s)) :
    ∀ (pEs : List (J × J)), wfPathsB pEs = true →
      pyAnyM f (pEs.map Prod.fst) =
        .ok (pEs.any (fun e => match e.1 with | .str p => g p | _ => false)) := by
  intro pEs
  induction pEs with
  | nil => intro _; simp [pyAnyM]
  | cons e rest ih =>
      intro hwf
      obtain ⟨k, v⟩ := e
      obtain ⟨⟨p, ms, rfl, rfl, _⟩, hrest⟩ := wfPathsB_cons hwf
      rw [List.map_cons]
      cases hg : g p
      · simp only [pyAnyM, hf p, hg]
        rw [ih hrest]
        simp [hg]
      · simp [pyAnyM, hf p, hg]

/-- The first two characters of a string, used to tell resource edges
apart from the fixed auth edges. -/
def firstTwo (l : String) : Option (Char × Char) :=
  match l.data with
  | a :: b :: _ => some (a, b)
  | _ => none

theorem notAuth_of_firstTwo {l : String}
    (h : firstTwo l = some ('T', ' ') ∨ firstTwo l = some ('G', '_') ∨
         firstTwo l = some ('L', '_') ∨ firstTwo l = some ('C', '_') ∨
         firstTwo l = some ('U', '_') ∨ firstTwo l = some ('D', '_') ∨
         firstTwo l = some ('`', '`')) :
    l ∉ sEdges ∧ l ∉ lEdges ∧ l ∉ tEdges := by
  refine ⟨?_, ?_, ?_⟩ <;> intro hmem
  · simp [sEdges] at hmem
    rcases hmem with rfl | rfl <;> revert h <;> decide
  · simp [lEdges] at hmem
    rcases hmem with rfl | rfl <;> revert h <;> decide
  · simp [tEdges] at hmem
    rcases hmem with rfl | rfl <;> revert h <;> decide

theorem flowMethodLines_notAuth (r ps mUp : String) :
    ∀ l ∈ flowMethodLines r ps mUp, l ∉ sEdges ∧ l ∉ lEdges ∧ l ∉ tEdges := by
  intro l hl
  unfold flowMethodLines at hl
  split_ifs at hl <;> simp at hl
  · rcases hl with rfl | rfl
    · exact notAuth_of_firstTwo (Or.inl rfl)
    · exact notAuth_of_firstTwo (Or.inr (Or.inl rfl))
  · rcases hl with rfl | rfl
    · exact notAuth_of_firstTwo (Or.inl rfl)
    · exact notAuth_of_firstTwo (Or.inr (Or.inr (Or.inl rfl)))
  · rcases hl with rfl | rfl
    · exact notAuth_of_firstTwo (Or.inl rfl)
    · exact notAuth_of_firstTwo (Or.inr (Or.inr (Or.inr (Or.inl rfl))))
  · rcases hl with rfl | rfl
    · exact notAuth_of_firstTwo (Or.inl rfl)
    · exact notAuth_of_firstTwo
        (Or.inr (Or.inr (Or.inr (Or.inr (Or.inl rfl)))))
  · rcases hl with rfl | rfl
    · exact notAuth_of_firstTwo (Or.inl rfl)
    · exact notAuth_of_firstTwo
        (Or.inr (Or.inr (Or.inr (Or.inr (Or.inr (Or.inl rfl))))))

theorem flowMethodsLoop_ok (r ps : String) (mks : List J)
    (hstr : ∀ mk ∈ mks, ∃ s, mk = J.str s) :
    ∃ ls, flowMethodsLoop r ps mks = .ok ls ∧
      ∀ l ∈ ls, l ∉ sEdges ∧ l ∉ lEdges ∧ l ∉ tEdges := by
  induction mks with
  | nil => exact ⟨[], rfl, by simp⟩
  | cons mk rest ih =>
      obtain ⟨s, rfl⟩ := hstr mk (List.mem_cons_self _ _)
      obtain ⟨ls, hls, hprop⟩ := ih (fun mk hmk => hstr mk (List.mem_cons_of_mem _ hmk))
      refine ⟨flowMethodLines r ps (upperStr s) ++ ls, ?_, ?_⟩
      · simp [flowMethodsLoop, pyUpper, hls]
      · intro l hl
        rcases List.mem_append.mp hl with h | h
        · exact flowMethodLines_notAuth r ps (upperStr s) l h
        · exact hprop l h

theorem lookupEntries_mem {es : List (J × J)} {k v : J}
    (h : lookupEntries es k = some v) : (k, v) ∈ es := by
  induction es with
  | nil => simp [lookupEntries] at h
  | cons e rest ih =>
      obtain ⟨k', v'⟩ := e
      simp only [lookupEntries] at h
      by_cases hk : k' = k
      · subst hk
        simp at h
        simp [h]
      · simp [hk] at h
        exact List.mem_cons_of_mem _ (ih h)

theorem wfPathsB_mem {pEs : List (J × J)} (hwf : wfPathsB pEs = true)
    {k v : J} (hmem : (k, v) ∈ pEs) :
    ∃ p ms, k = J.str p ∧ v = J.obj ms ∧ ∀ me ∈ ms, ∃ s, me.1 = J.str s := by
  induction pEs with
  | nil => simp at hmem
  | cons e rest ih =>
      obtain ⟨k', v'⟩ := e
      obtain ⟨hhead, hrest⟩ := wfPathsB_cons hwf
      rcases List.mem_cons.mp hmem with h | h
      · obtain ⟨hk, hv⟩ : k = k' ∧ v = v' := by simpa [Prod.ext_iff] using h
        subst hk; subst hv
        exact hhead
      · exact ih hrest h

theorem keys_lookup {pEs : List (J × J)} {k : J}
    (h : k ∈ pEs.map Prod.fst) : ∃ v, lookupEntries pEs k = some v := by
  induction pEs with
  | nil => simp at h
  | cons e rest ih =>
      obtain ⟨k', v'⟩ := e
      by_cases hk : k' = k
      · subst hk
        exact ⟨v', by simp [lookupEntries]⟩
      · rw [List.map_cons] at h
        rcases List.mem_cons.mp h with h | h
        · exact absurd h.symm hk
        · obtain ⟨v, hv⟩ := ih h
          exact ⟨v, by simp [lookupEntries, hk, hv]⟩

theorem mapUpperM_ok (mks : List J) (h : ∀ mk ∈ mks, ∃ s, mk = J.str s) :
    ∃ us, mapUpperM mks = .ok us := by
  induction mks with
  | nil => exact ⟨[], rfl⟩
  | cons mk rest ih =>
      obtain ⟨s, rfl⟩ := h mk (List.mem_cons_self _ _)
      obtain ⟨us, hus⟩ := ih (fun mk hmk => h mk (List.mem_cons_of_mem _ hmk))
      exact ⟨upperStr s :: us, by simp [mapUpperM, pyUpper, hus, Except.map]⟩

theorem methodKeys_ok {ms : List (J × J)}
    (hms : ∀ me ∈ ms, ∃ s, me.1 = J.str s) :
    ∃ mks, pyIter (pyOr (.obj ms) (.obj [])) = .ok mks ∧
      ∀ mk ∈ mks, ∃ s, mk = J.str s := by
  cases ms with
  | nil => exact ⟨[], rfl, by simp⟩
  | cons me rest =>
      refine ⟨(me :: rest).map Prod.fst, by simp [pyOr, truthy, pyIter], ?_⟩
      intro mk hmk
      rcases List.mem_map.mp hmk with ⟨e, he, rfl⟩
      exact hms e he

theorem flowResourceLoop_ok (pEs : List (J × J)) (hwf : wfPathsB pEs = true) :
    ∃ rls, flowResourceLoop pEs = .ok rls ∧
      ∀ l ∈ rls, l ∉ sEdges ∧ l ∉ lEdges ∧ l ∉ tEdges := by
  induction pEs with
  | nil => exact ⟨[], rfl, by simp⟩
  | cons e rest ih =>
      obtain ⟨k, v⟩ := e
      obtain ⟨⟨p, ms, rfl, rfl, hms⟩, hrest⟩ := wfPathsB_cons hwf
      obtain ⟨rls2, hrls2, hprop2⟩ := ih hrest
      rcases hsegs : flowSegs p with _ | ⟨r, segs⟩
      · exact ⟨rls2, by simp [flowResourceLoop, hsegs, hrls2], hprop2⟩
      · obtain ⟨mks, hmks, hmkstr⟩ := methodKeys_ok hms
        obtain ⟨ls, hls, hlprop⟩ := flowMethodsLoop_ok r p mks hmkstr
        refine ⟨ls ++ rls2, ?_, ?_⟩
        · simp [flowResourceLoop, hsegs, hmks, hls, hrls2]
        · intro l hl
          rcases List.mem_append.mp hl with h | h
          · exact hlprop l h
          · exact hprop2 l h

theorem allMethodsLoop_ok (pEs : List (J × J)) (hwf : wfPathsB pEs = true) :
    ∀ ks, (∀ k ∈ ks, k ∈ pEs.map Prod.fst) →
      ∃ us, allMethodsLoop pEs ks = .ok us := by
  intro ks
  induction ks with
  | nil => exact fun _ => ⟨[], rfl⟩
  | cons k rest ih =>
      intro hks
      obtain ⟨v, hv⟩ := keys_lookup (hks k (List.mem_cons_self _ _))
      obtain ⟨p, ms, rfl, rfl, hms⟩ := wfPathsB_mem hwf (lookupEntries_mem hv)
      obtain ⟨mks, hmks, hmkstr⟩ := methodKeys_ok hms
      obtain ⟨us1, hus1⟩ := mapUpperM_ok mks hmkstr
      obtain ⟨us2, hus2⟩ := ih (fun k hk => hks k (List.mem_cons_of_mem _ hk))
      exact ⟨us1 ++ us2, by simp [allMethodsLoop, hv, hmks, hus1, hus2]⟩

theorem flow_assemble (hdr rls X Y Z W : List String)
    (hr : ∀ l ∈ rls, l ∉ sEdges ∧ l ∉ lEdges ∧ l ∉ tEdges)
    (hX : ∀ l ∈ X, l ∉ sEdges ∧ l ∉ lEdges ∧ l ∉ tEdges)
    (hY : ∀ l ∈ Y, l ∉ sEdges ∧ l ∉ lEdges ∧ l ∉ tEdges)
    (hZ : ∀ l ∈ Z, l ∉ sEdges ∧ l ∉ lEdges ∧ l ∉ tEdges)
    (hW : ∀ l ∈ W, l ∉ sEdges ∧ l ∉ lEdges ∧ l ∉ tEdges) :
    ∃ rest,
      (Except.ok ((((((hdr ++ rls) ++ X) ++ Y) ++ Z) ++ W) ++ ["```"]) :
        Except String (List String)) = .ok (hdr ++ rest) ∧
      ∀ l ∈ rest, l ∉ sEdges ∧ l ∉ lEdges ∧ l ∉ tEdges := by
  refine ⟨rls ++ X ++ Y ++ Z ++ W ++ ["```"], by simp, ?_⟩
  intro l hl
  simp only [List.mem_append, List.mem_singleton] at hl
  rcases hl with ((((hl | hl) | hl) | hl) | hl) | hl
  · exact hr l hl
  · exact hX l hl
  · exact hY l hl
  · exact hZ l hl
  · exact hW l hl
  · subst hl
    exact notAuth_of_firstTwo (by decide)

/-- Claim C9 is false as stated: on `{"paths": {"/auth/token": {"get":
{}}}}` a path contains the fragment `"auth"`, yet the canonical
login-edge group is not emitted, because the code requires an
`"auth"`-containing path to not also contain `"token"`. -/
theorem c9_counterexample :
    ∃ lines, generate_flow_diagram
        (J.obj [(.str "paths",
          .obj [(.str "/auth/token", .obj [(.str "get", .obj [])])])]) =
        .ok lines ∧
      strContains "/auth/token" "auth" = true ∧
      "U --> L[POST /login]" ∉ lines := by
  refine ⟨_, rfl, by decide, by decide⟩

set_option maxRecDepth 40000 in
/-- Claim C9 (amended): for every well-formed paths mapping, the
diagram opens with the fixed three-line header followed by the
signup-edge group when some path contains `signup` or `register`, then
the login-edge group when some path contains `login` or contains `auth`
without containing `token`, then the token-edge group when some path
contains `token` — each group appearing at most once no matter how many
paths match — and everything after that (the resource edges, the CRUD
fallbacks, the closing fence) contains no auth-edge line. -/
theorem c9_flow_auth (info : J) (pEs : List (J × J))
    (hwf : wfPathsB pEs = true) :
    ∃ rest, generate_flow_diagram
        (J.obj [(.str "info", info), (.str "paths", .obj pEs)]) =
      .ok (["```mermaid", "flowchart LR", "U[👤 Client]"]
        ++ (if condSignup pEs then sEdges else [])
        ++ (if condLogin pEs then lEdges else [])
        ++ (if condToken pEs then tEdges else [])
        ++ rest) ∧
      ∀ l ∈ rest, l ∉ sEdges ∧ l ∉ lEdges ∧ l ∉ tEdges := by
  have h1 : pGet (J.obj [(.str "info", info), (.str "paths", .obj pEs)])
      "paths" = .ok (.obj pEs) := rfl
  have hpy : pyOr (.obj pEs) (.obj []) = .obj pEs := by
    cases pEs <;> simp [pyOr, truthy]
  have hIter : pyIter (J.obj pEs) = .ok (pEs.map Prod.fst) := rfl
  have hAnyS := pyAnyM_keys flowCondS
    (fun p => strContains p "signup" || strContains p "register")
    flowCondS_str pEs hwf
  have hAnyL := pyAnyM_keys flowCondL
    (fun p => strContains p "login" || (strContains p "auth" && !strContains p "token"))
    flowCondL_str pEs hwf
  have hAnyT := pyAnyM_keys flowCondT (fun p => strContains p "token")
    flowCondT_str pEs hwf
  have hItems : pyItems (J.obj pEs) = .ok pEs := rfl
  obtain ⟨rls, hrls, hrlsProp⟩ := flowResourceLoop_ok pEs hwf
  obtain ⟨us, hus⟩ := allMethodsLoop_ok pEs hwf (pEs.map Prod.fst)
    (fun k hk => hk)
  unfold generate_flow_diagram
  simp only [h1, hpy, hIter, hAnyS, hAnyL, hAnyT, hItems, hrls, hus]
  refine flow_assemble _ rls _ _ _ _ hrlsProp ?_ ?_ ?_ ?_ <;>
    (intro l hl
     split_ifs at hl <;> simp at hl <;>
       (subst hl; exact notAuth_of_firstTwo (Or.inl rfl)))

/-- Witness for the amended C9: `/api/login` triggers exactly the
login-edge group. -/
theorem c9_witness :
    ∃ rest, generate_flow_diagram
        (J.obj [(.str "info", J.obj []), (.str "paths",
          .obj [(.str "/api/login", .obj [(.str "post", .obj [])])])]) =
      .ok (["```mermaid", "flowchart LR", "U[👤 Client]"]
        ++ (if condSignup [(.str "/api/login", .obj [(.str "post", .obj [])])]
            then sEdges else [])
        ++ (if condLogin [(.str "/api/login", .obj [(.str "post", .obj [])])]
            then lEdges else [])
        ++ (if condToken [(.str "/api/login", .obj [(.str "post", .obj [])])]
            then tEdges else [])
        ++ rest) ∧
      ∀ l ∈ rest, l ∉ sEdges ∧ l ∉ lEdges ∧ l ∉ tEdges :=
  c9_flow_auth (J.obj []) _ (by decide)

/-!
Claim C5 — search contract.  The matched `(path, verb, Operation)`
triples accumulate through `setdefault` stores with the original
(non-lowercased) keys, so the replay machinery is mirrored with `J`
keys.
-/

def applyEntriesJ (paths : List (J × J)) : List (J × J × J) → List (J × J)
  | [] => paths
  | (p, mk, op) :: rest => applyEntriesJ (addEntryJ paths p mk op) rest

theorem applyEntriesJ_append (es1 es2 : List (J × J × J)) :
    ∀ paths, applyEntriesJ paths (es1 ++ es2) =
      applyEntriesJ (applyEntriesJ paths es1) es2 := by
  induction es1 with
  | nil => intro paths; simp [applyEntriesJ]
  | cons e rest ih =>
      intro paths
      obtain ⟨p, mk, op⟩ := e
      simp [applyEntriesJ, ih]

def lastEntryOpJ : List (J × J × J) → J → J → Option J
  | [], _, _ => none
  | (p', mk', op) :: rest, p, mk =>
      match lastEntryOpJ rest p mk with
      | some o => some o
      | none => if p' = p ∧ mk' = mk then some op else none

theorem lookupJ2_applyEntriesJ (es : List (J × J × J)) :
    ∀ paths p mk, lookupJ2 (applyEntriesJ paths es) p mk =
      match lastEntryOpJ es p mk with
      | some o => some o
      | none => lookupJ2 paths p mk := by
  induction es with
  | nil => intro paths p mk; simp [applyEntriesJ, lastEntryOpJ]
  | cons e rest ih =>
      obtain ⟨p', mk', op⟩ := e
      intro paths p mk
      simp only [applyEntriesJ, lastEntryOpJ]
      rw [ih]
      rcases h : lastEntryOpJ rest p mk with _ | o
      · by_cases hc : p' = p ∧ mk' = mk
        · simp [h, hc, lookupJ2_addEntryJ]
        · simp [h, hc, lookupJ2_addEntryJ]
      · simp [h]

theorem lastEntryOpJ_isSome_of_mem {es : List (J × J × J)} {p mk op : J}
    (h : (p, mk, op) ∈ es) : (lastEntryOpJ es p mk).isSome := by
  induction es with
  | nil => simp at h
  | cons e rest ih =>
      obtain ⟨p', mk', op'⟩ := e
      rcases List.mem_cons.mp h with h1 | h2
      · obtain ⟨hp, hm, _⟩ : p = p' ∧ mk = mk' ∧ op = op' := by
          simpa [Prod.ext_iff] using h1
        subst hp; subst hm
        simp only [lastEntryOpJ]
        rcases hr : lastEntryOpJ rest p mk with _ | o
        · simp
        · simp
      · have := ih h2
        simp only [lastEntryOpJ]
        rcases hr : lastEntryOpJ rest p mk with _ | o
        · rw [hr] at this; simp at this
        · simp

theorem lastEntryOpJ_mem {es : List (J × J × J)} {p mk d : J}
    (h : lastEntryOpJ es p mk = some d) : (p, mk, d) ∈ es := by
  induction es with
  | nil => simp [lastEntryOpJ] at h
  | cons e rest ih =>
      obtain ⟨p', mk', op'⟩ := e
      simp only [lastEntryOpJ] at h
      rcases hr : lastEntryOpJ rest p mk with _ | o
      · rw [hr] at h
        simp at h
        obtain ⟨⟨hp, hm⟩, hd⟩ := h
        subst hp
        subst hm
        subst hd
        exact List.mem_cons_self _ _
      · rw [hr] at h
        injection h with hd
        subst hd
        exact List.mem_cons_of_mem _ (ih hr)

theorem lookupEntries_of_mem_nodup {es : List (J × J)} {k v : J}
    (hnd : (es.map Prod.fst).Nodup) (h : (k, v) ∈ es) :
    lookupEntries es k = some v := by
  induction es with
  | nil => simp at h
  | cons e rest ih =>
      obtain ⟨k', v'⟩ := e
      rw [List.map_cons] at hnd
      rcases List.nodup_cons.mp hnd with ⟨hk', hrest⟩
      rcases List.mem_cons.mp h with h1 | h2
      · obtain ⟨hk, hv⟩ : k = k' ∧ v = v' := by simpa [Prod.ext_iff] using h1
        subst hk; subst hv
        simp [lookupEntries]
      · by_cases hk : k' = k
        · subst hk
          exact absurd (List.mem_map.mpr ⟨(k', v), h2, rfl⟩) hk'
        · simp [lookupEntries, hk, ih hrest h2]

/-- The claim-side match condition: the lowercased (stripped) keyword is
a substring of the lowercased path, the lowercased verb, or the
lowercased serialized Operation. -/
def opMatches (kw : String) (p m : String) (d : J) : Bool :=
  strContains (lowerStr p) kw || strContains (lowerStr m) kw ||
    strContains (lowerStr (jdump d)) kw

/-- The triple `(p, m, d)` is a `(path, verb, Operation)` of the spec
and satisfies the match condition. -/
def pairMatch (kw : String) (pEs : List (J × J)) (p m : String) (d : J) : Prop :=
  ∃ ms, lookupEntries pEs (.str p) = some (.obj ms) ∧
    lookupEntries ms (.str m) = some d ∧ opMatches kw p m d = true

def matchedEntries (kw p : String) : List (J × J) → List (J × J × J)
  | [] => []
  | (mk, d) :: rest =>
    match mk with
    | J.str m =>
        if opMatches kw p m d then (J.str p, J.str m, d) :: matchedEntries kw p rest
        else matchedEntries kw p rest
    | _ => matchedEntries kw p rest

def allMatched (kw : String) : List (J × J) → List (J × J × J)
  | [] => []
  | (k, v) :: rest =>
    (match k, v with
     | J.str p, J.obj ms => matchedEntries kw p ms
     | _, _ => []) ++ allMatched kw rest

theorem searchMethods_eq (kw p : String) (ms : List (J × J))
    (hstr : ∀ me ∈ ms, ∃ s, me.1 = J.str s) :
    ∀ acc, searchMethods kw (.str p) acc ms =
      .ok (applyEntriesJ acc (matchedEntries kw p ms)) := by
  induction ms with
  | nil => intro acc; simp [searchMethods, matchedEntries, applyEntriesJ]
  | cons me rest ih =>
      obtain ⟨mk, d⟩ := me
      obtain ⟨s, hs⟩ : ∃ s, mk = J.str s := by
        simpa using hstr (mk, d) (List.mem_cons_self _ _)
      subst hs
      have ih' := ih (fun me hme => hstr me (List.mem_cons_of_mem _ hme))
      intro acc
      by_cases c1 : strContains (lowerStr p) kw
      · have hop : opMatches kw p s d = true := by simp [opMatches, c1]
        simp [searchMethods, pyLower, c1, matchedEntries, hop, ih',
          applyEntriesJ]
      · by_cases c2 : strContains (lowerStr s) kw
        · have hop : opMatches kw p s d = true := by simp [opMatches, c2]
          simp [searchMethods, pyLower, c1, c2, matchedEntries, hop, ih',
            applyEntriesJ]
        · by_cases c3 : strContains (lowerStr (jdump d)) kw
          · have hop : opMatches kw p s d = true := by simp [opMatches, c3]
            simp [searchMethods, pyLower, c1, c2, c3, matchedEntries, hop,
              ih', applyEntriesJ]
          · have hop : opMatches kw p s d = false := by
              simp [opMatches, c1, c2, c3]
            simp [searchMethods, pyLower, c1, c2, c3, matchedEntries, hop, ih']

theorem searchPaths_eq (kw : String) (pEs : List (J × J))
    (hwf : wfPathsB pEs = true) :
    ∀ acc, searchPaths kw acc pEs =
      .ok (applyEntriesJ acc (allMatched kw pEs)) := by
  induction pEs with
  | nil => intro acc; simp [searchPaths, allMatched, applyEntriesJ]
  | cons e rest ih =>
      obtain ⟨k, v⟩ := e
      obtain ⟨⟨p, ms, rfl, rfl, hms⟩, hrest⟩ := wfPathsB_cons hwf
      intro acc
      have hpi : pyItems (pyOr (.obj ms) (.obj [])) = .ok ms := by
        cases ms <;> simp [pyOr, truthy, pyItems]
      simp [searchPaths, hpi, searchMethods_eq kw p ms hms acc, ih hrest,
        allMatched, applyEntriesJ_append]

theorem insertEntries_ne_nil (es : List (J × J)) (k v : J) :
    insertEntries es k v ≠ [] := by
  cases es with
  | nil => simp [insertEntries]
  | cons e rest =>
      obtain ⟨k', v'⟩ := e
      by_cases h : k' = k <;> simp [insertEntries, h]

theorem applyEntriesJ_ne_nil (es : List (J × J × J)) :
    ∀ paths, paths ≠ [] → applyEntriesJ paths es ≠ [] := by
  induction es with
  | nil => intro paths h; simpa [applyEntriesJ] using h
  | cons e rest ih =>
      obtain ⟨p, mk, op⟩ := e
      intro paths h
      exact ih _ (insertEntries_ne_nil _ _ _)

theorem applyEntriesJ_nil_iff (es : List (J × J × J)) :
    applyEntriesJ [] es = [] ↔ es = [] := by
  cases es with
  | nil => simp [applyEntriesJ]
  | cons e rest =>
      obtain ⟨p, mk, op⟩ := e
      simp only [applyEntriesJ]
      constructor
      · intro h
        exact absurd h (applyEntriesJ_ne_nil rest _ (insertEntries_ne_nil _ _ _))
      · intro h
        cases h

theorem mem_matchedEntries_intro {kw p : String} {ms : List (J × J)}
    {m : String} {d : J} (h : (J.str m, d) ∈ ms)
    (hop : opMatches kw p m d = true) :
    (J.str p, J.str m, d) ∈ matchedEntries kw p ms := by
  induction ms with
  | nil => simp at h
  | cons me rest ih =>
      obtain ⟨mk, d'⟩ := me
      rcases List.mem_cons.mp h with h1 | h2
      · obtain ⟨hk, hd⟩ : J.str m = mk ∧ d = d' := by
          simpa [Prod.ext_iff, eq_comm] using h1.symm
        subst hd
        rw [← hk]
        simp [matchedEntries, hop]
      · have := ih h2
        cases mk with
        | str s =>
            by_cases hc : opMatches kw p s d'
            · simp [matchedEntries, hc]
              right
              exact this
            · simpa [matchedEntries, hc] using this
        | _ => simpa [matchedEntries] using this

theorem mem_matchedEntries_elim {kw p : String} {ms : List (J × J)} {e : J × J × J}
    (h : e ∈ matchedEntries kw p ms) :
    ∃ m d, e = (J.str p, J.str m, d) ∧ (J.str m, d) ∈ ms ∧
      opMatches kw p m d = true := by
  induction ms with
  | nil => simp [matchedEntries] at h
  | cons me rest ih =>
      obtain ⟨mk, d'⟩ := me
      cases mk with
      | str s =>
          by_cases hc : opMatches kw p s d'
          · rw [matchedEntries, if_pos hc] at h
            rcases List.mem_cons.mp h with h1 | h2
            · exact ⟨s, d', h1, List.mem_cons_self _ _, hc⟩
            · obtain ⟨m, d, he, hm, ho⟩ := ih h2
              exact ⟨m, d, he, List.mem_cons_of_mem _ hm, ho⟩
          · rw [matchedEntries, if_neg hc] at h
            obtain ⟨m, d, he, hm, ho⟩ := ih h
            exact ⟨m, d, he, List.mem_cons_of_mem _ hm, ho⟩
      | null =>
          obtain ⟨m, d, he, hm, ho⟩ := ih (by simpa [matchedEntries] using h)
          exact ⟨m, d, he, List.mem_cons_of_mem _ hm, ho⟩
      | bool b =>
          obtain ⟨m, d, he, hm, ho⟩ := ih (by simpa [matchedEntries] using h)
          exact ⟨m, d, he, List.mem_cons_of_mem _ hm, ho⟩
      | num n =>
          obtain ⟨m, d, he, hm, ho⟩ := ih (by simpa [matchedEntries] using h)
          exact ⟨m, d, he, List.mem_cons_of_mem _ hm, ho⟩
      | arr xs =>
          obtain ⟨m, d, he, hm, ho⟩ := ih (by simpa [matchedEntries] using h)
          exact ⟨m, d, he, List.mem_cons_of_mem _ hm, ho⟩
      | obj es =>
          obtain ⟨m, d, he, hm, ho⟩ := ih (by simpa [matchedEntries] using h)
          exact ⟨m, d, he, List.mem_cons_of_mem _ hm, ho⟩

theorem mem_allMatched_intro {kw : String} {pEs : List (J × J)}
    {p m : String} {d : J} {ms : List (J × J)}
    (h1 : (J.str p, J.obj ms) ∈ pEs) (h2 : (J.str m, d) ∈ ms)
    (h3 : opMatches kw p m d = true) :
    (J.str p, J.str m, d) ∈ allMatched kw pEs := by
  induction pEs with
  | nil => simp at h1
  | cons e rest ih =>
      obtain ⟨k, v⟩ := e
      rcases List.mem_cons.mp h1 with hh | hh
      · obtain ⟨hk, hv⟩ : J.str p = k ∧ J.obj ms = v := by
          simpa [Prod.ext_iff, eq_comm] using hh.symm
        rw [← hk, ← hv]
        simp only [allMatched]
        exact List.mem_append_left _ (mem_matchedEntries_intro h2 h3)
      · simp only [allMatched]
        exact List.mem_append_right _ (ih hh)

theorem mem_allMatched_elim {kw : String} {pEs : List (J × J)} {e : J × J × J}
    (h : e ∈ allMatched kw pEs) :
    ∃ p ms m d, e = (J.str p, J.str m, d) ∧ (J.str p, J.obj ms) ∈ pEs ∧
      (J.str m, d) ∈ ms ∧ opMatches kw p m d = true := by
  induction pEs with
  | nil => simp [allMatched] at h
  | cons pe rest ih =>
      obtain ⟨k, v⟩ := pe
      simp only [allMatched] at h
      rcases List.mem_append.mp h with h1 | h2
      · match k, v, h1 with
        | J.str p, J.obj ms, h1 =>
          obtain ⟨m, d, he, hm, ho⟩ := mem_matchedEntries_elim h1
          exact ⟨p, ms, m, d, he, List.mem_cons_self _ _, hm, ho⟩
      · obtain ⟨p, ms, m, d, he, hmem, hm, ho⟩ := ih h2
        exact ⟨p, ms, m, d, he, List.mem_cons_of_mem _ hmem, hm, ho⟩

/-- Path-key and verb-key uniqueness (true of every decoded document,
since Python dicts cannot carry duplicate keys). -/
def nodupPathsB (pEs : List (J × J)) : Bool :=
  decide (pEs.map Prod.fst).Nodup &&
  pEs.all (fun e =>
    match e.2 with
    | .obj ms => decide (ms.map Prod.fst).Nodup
    | _ => true)

theorem nodupPathsB_keys {pEs : List (J × J)} (h : nodupPathsB pEs = true) :
    (pEs.map Prod.fst).Nodup := by
  rcases Bool.and_eq_true_iff.mp h with ⟨h1, _⟩
  exact of_decide_eq_true h1

theorem nodupPathsB_inner {pEs : List (J × J)} (h : nodupPathsB pEs = true)
    {k : J} {ms : List (J × J)} (hmem : (k, J.obj ms) ∈ pEs) :
    (ms.map Prod.fst).Nodup := by
  rcases Bool.and_eq_true_iff.mp h with ⟨_, h2⟩
  have := List.all_eq_true.mp h2 (k, J.obj ms) hmem
  exact of_decide_eq_true (by simpa using this)

theorem allMatched_pairMatch {kw : String} {pEs : List (J × J)}
    (hnd : nodupPathsB pEs = true) {p m : String} {d : J}
    (h : (J.str p, J.str m, d) ∈ allMatched kw pEs) :
    pairMatch kw pEs p m d := by
  obtain ⟨p', ms, m', d', heq, hmem1, hmem2, hop⟩ := mem_allMatched_elim h
  obtain ⟨hp, hm, hd⟩ : J.str p = J.str p' ∧ J.str m = J.str m' ∧ d = d' := by
    simpa [Prod.ext_iff] using heq
  injection hp with hp
  injection hm with hm
  subst hp
  subst hm
  subst hd
  exact ⟨ms, lookupEntries_of_mem_nodup (nodupPathsB_keys hnd) hmem1,
    lookupEntries_of_mem_nodup (nodupPathsB_inner hnd hmem1) hmem2, hop⟩

theorem pairMatch_unique {kw : String} {pEs : List (J × J)} {p m : String}
    {d o : J} (h1 : pairMatch kw pEs p m d) (h2 : pairMatch kw pEs p m o) :
    d = o := by
  obtain ⟨ms, ha, hb, _⟩ := h1
  obtain ⟨ms', ha', hb', _⟩ := h2
  rw [ha] at ha'
  injection ha' with h'
  injection h' with h''
  subst h''
  rw [hb] at hb'
  injection hb'

theorem lookupJ2_results {kw : String} {pEs : List (J × J)} (p m : String) :
    lookupJ2 (applyEntriesJ [] (allMatched kw pEs)) (.str p) (.str m) =
      lastEntryOpJ (allMatched kw pEs) (.str p) (.str m) := by
  rw [lookupJ2_applyEntriesJ]
  rcases h : lastEntryOpJ (allMatched kw pEs) (.str p) (.str m) with _ | o
  · simp [lookupJ2, lookupEntries]
  · simp

/-- C5: a blank (after lowercasing and stripping) keyword is rejected
before any scanning; a non-blank keyword produces a result object whose
`(path, verb)` cells hold an Operation exactly when that
`(path, verb, Operation)` triple of the spec matches the keyword — i.e.
the lowercased keyword is a substring of the lowercased path, the
lowercased verb, or the lowercased serialized Operation — and the
zero-match case is the distinguished `noMatches` signal, not an error. -/
theorem c5_search_contract (info : J) (pEs : List (J × J)) (keyword : String)
    (hwf : wfPathsB pEs = true) (hnd : nodupPathsB pEs = true) :
    (pyStrip (lowerStr keyword) = "" →
      search (J.obj [(.str "info", info), (.str "paths", .obj pEs)]) keyword
        = .ok .emptyKeyword) ∧
    (pyStrip (lowerStr keyword) ≠ "" →
      ∃ rs,
        search (J.obj [(.str "info", info), (.str "paths", .obj pEs)]) keyword
          = .ok (if rs.isEmpty then .noMatches keyword else .results rs) ∧
        (∀ p m d, lookupJ2 rs (.str p) (.str m) = some d ↔
          pairMatch (pyStrip (lowerStr keyword)) pEs p m d) ∧
        (rs.isEmpty = true ↔
          ∀ p m d, ¬ pairMatch (pyStrip (lowerStr keyword)) pEs p m d)) := by
  have htr : truthy (J.obj [(.str "info", info), (.str "paths", .obj pEs)])
      = true := by
    simp [truthy]
  constructor
  · intro h
    simp [search, htr, h]
  · intro h
    have hp0 : pGet (J.obj [(.str "info", info), (.str "paths", .obj pEs)])
        "paths" = .ok (.obj pEs) := rfl
    have hpy : pyItems (pyOr (.obj pEs) (.obj [])) = .ok pEs := by
      cases pEs <;> simp [pyOr, truthy, pyItems]
    have hsp := searchPaths_eq (pyStrip (lowerStr keyword)) pEs hwf []
    refine ⟨applyEntriesJ [] (allMatched (pyStrip (lowerStr keyword)) pEs),
      ?_, ?_, ?_⟩
    · by_cases he :
        (applyEntriesJ [] (allMatched (pyStrip (lowerStr keyword)) pEs)).isEmpty <;>
        simp [search, htr, h, hp0, hpy, hsp, he]
    · intro p m d
      rw [lookupJ2_results]
      constructor
      · intro hsome
        exact allMatched_pairMatch hnd (lastEntryOpJ_mem hsome)
      · intro hpm
        obtain ⟨ms, h1, h2, h3⟩ := hpm
        have hmem := mem_allMatched_intro (lookupEntries_mem h1)
          (lookupEntries_mem h2) h3
        have hiso := lastEntryOpJ_isSome_of_mem hmem
        rcases hl : lastEntryOpJ (allMatched (pyStrip (lowerStr keyword)) pEs)
            (.str p) (.str m) with _ | o
        · rw [hl] at hiso
          simp at hiso
        · have ho : pairMatch (pyStrip (lowerStr keyword)) pEs p m o :=
            allMatched_pairMatch hnd (lastEntryOpJ_mem hl)
          rw [pairMatch_unique ⟨ms, h1, h2, h3⟩ ho]
    · constructor
      · intro hemp p m d hpm
        obtain ⟨ms, h1, h2, h3⟩ := hpm
        have hmem := mem_allMatched_intro (lookupEntries_mem h1)
          (lookupEntries_mem h2) h3
        have hnil : allMatched (pyStrip (lowerStr keyword)) pEs = [] :=
          (applyEntriesJ_nil_iff _).mp (List.isEmpty_iff.mp hemp)
        rw [hnil] at hmem
        simp at hmem
      · intro hno
        rcases hm : allMatched (pyStrip (lowerStr keyword)) pEs with _ | ⟨e, rest⟩
        · simp [hm, applyEntriesJ]
        · exfalso
          have he : e ∈ allMatched (pyStrip (lowerStr keyword)) pEs := by
            rw [hm]
            exact List.mem_cons_self _ _
          obtain ⟨p, ms, m, d, rfl, hmem1, hmem2, hop⟩ := mem_allMatched_elim he
          exact hno p m d (allMatched_pairMatch hnd he)

/-- A concrete run of the search contract: the spec has the single path
/api/login with one get Operation, the keyword is login, and the result
is exactly one match at that (path, verb) cell. -/
theorem c5_witness :
    wfPathsB [(J.str "/api/login",
        J.obj [(J.str "get", J.obj [(J.str "summary", J.str "Log in")])])]
      = true ∧
    pyStrip (lowerStr "login") ≠ "" ∧
    (∃ rs,
      search (J.obj [(.str "info", J.null),
          (.str "paths", .obj [(J.str "/api/login",
            J.obj [(J.str "get", J.obj [(J.str "summary", J.str "Log in")])])])])
        "login"
        = .ok (if rs.isEmpty then .noMatches "login" else .results rs) ∧
      (∀ p m d, lookupJ2 rs (.str p) (.str m) = some d ↔
        pairMatch (pyStrip (lowerStr "login"))
          [(J.str "/api/login",
            J.obj [(J.str "get", J.obj [(J.str "summary", J.str "Log in")])])]
          p m d) ∧
      (rs.isEmpty = true ↔
        ∀ p m d, ¬ pairMatch (pyStrip (lowerStr "login"))
          [(J.str "/api/login",
            J.obj [(J.str "get", J.obj [(J.str "summary", J.str "Log in")])])]
          p m d)) ∧
    search (J.obj [(.str "info", J.null),
        (.str "paths", .obj [(J.str "/api/login",
          J.obj [(J.str "get", J.obj [(J.str "summary", J.str "Log in")])])])])
      "login"
      = .ok (.results [(J.str "/api/login",
          J.obj [(J.str "get", J.obj [(J.str "summary", J.str "Log in")])])]) :=
  ⟨by decide, by decide,
    (c5_search_contract J.null
      [(J.str "/api/login",
        J.obj [(J.str "get", J.obj [(J.str "summary", J.str "Log in")])])]
      "login" (by decide) (by decide)).2 (by decide),
    by rfl⟩

end ApiDoc
